import Mathlib

set_option maxRecDepth 10000

/- Verification of the arithmetic-worksheet generator (genlatex.py) and the
   block extraction / layout parser of the renderer (latex_to_image.py).

   Strings are modelled as `List Char`.  The Python string primitives used by
   the source (`str.replace` with empty replacement, `str.split` on a
   substring, `str.strip`, substring search, and the concrete regular
   expressions) are given as executable functions on `List Char` below, each
   with a comment stating which Python construct it embeds. -/

/-- Boolean test that `p` is an initial segment of `s` (Python `s.startswith(p)`
restricted to the beginning of a scan position). -/
def leadsWith : List Char → List Char → Bool
  | [], _ => true
  | _ :: _, [] => false
  | p :: ps, s :: ss => p == s && leadsWith ps ss

/-- Substring search: `re.search` of a literal pattern / Python `pat in s`. -/
def containsPat (pat : List Char) : List Char → Bool
  | [] => pat.isEmpty
  | c :: rest => leadsWith pat (c :: rest) || containsPat pat rest

/-- Worker for `removeAll`: while `skip > 0` the characters of an already
matched occurrence are being consumed. -/
def removeAllAux (pat : List Char) : List Char → Nat → List Char
  | [], _ => []
  | _ :: rest, skip + 1 => removeAllAux pat rest skip
  | c :: rest, 0 =>
    if leadsWith pat (c :: rest) && !pat.isEmpty then
      removeAllAux pat rest (pat.length - 1)
    else
      c :: removeAllAux pat rest 0

/-- Python `s.replace(pat, '')`: remove all non-overlapping occurrences of
`pat`, scanning left to right. -/
def removeAll (pat s : List Char) : List Char := removeAllAux pat s 0

/-- Worker for `splitOnL`: `acc` holds the current piece reversed, `skip`
counts remaining characters of a matched separator. -/
def splitOnAux (sep : List Char) : List Char → Nat → List Char → List (List Char)
  | [], _, acc => [acc.reverse]
  | _ :: rest, skip + 1, acc => splitOnAux sep rest skip acc
  | c :: rest, 0, acc =>
    if leadsWith sep (c :: rest) && !sep.isEmpty then
      acc.reverse :: splitOnAux sep rest (sep.length - 1) []
    else
      splitOnAux sep rest 0 (c :: acc)

/-- Python `s.split(pat)` for a non-empty separator: non-overlapping
left-to-right splitting.  (`''.split(p) = ['']`, matching Python.) -/
def splitOnL (sep s : List Char) : List (List Char) := splitOnAux sep s 0 []

/-- Locate the first occurrence of `pat`; return the text before it and the
text after it.  This embeds `re.search(A(.*?) ...)` steps where `A` is a
literal: the regex engine matches at the first position where the literal
occurs. -/
def splitOnceAfter (pat : List Char) : List Char → Option (List Char × List Char)
  | [] => none
  | c :: rest =>
    if leadsWith pat (c :: rest) && !pat.isEmpty then
      some ([], rest.drop (pat.length - 1))
    else
      match splitOnceAfter pat rest with
      | some (x, y) => some (c :: x, y)
      | none => none

/-- The whitespace class of Python's `str.strip()` / regex `\s` for the ASCII
range (the only characters that occur in this pipeline). -/
def isPySpace (c : Char) : Bool :=
  c = ' ' || c = '\t' || c = '\n' || c = '\r' || c = '\x0b' || c = '\x0c'

/-- Python `s.strip()`. -/
def stripL (s : List Char) : List Char :=
  ((s.dropWhile isPySpace).reverse.dropWhile isPySpace).reverse

/-- Decimal digit text of `n`: what Python's `f"{n}"` produces for a
nonnegative int. -/
def natDigits (n : Nat) : List Char := Nat.toDigits 10 n

/- ----------------------------------------------------------------
   genlatex.py, lines 13-42: number/operator generation.
   The random draws are passed explicitly:
     n_numbers  = random.randint(2, max_stack_height)
     num1       = random.randint(10, 999)
     num2       = random.randint(1, 99)
     coin       = random.choice([True, False])      (mix mode, 2 operands)
     swap_pad   = random.randint(10, 50)            (subtraction fixup)
     multi      = the n_numbers draws randint(1, 99) (3-4 operand problems)
   ---------------------------------------------------------------- -/

def gen_numbers_operators (operation_type : String) (n_numbers num1 num2 swap_pad : Nat)
    (coin : Bool) (multi : List Nat) : List Nat × List Char :=
  if n_numbers = 2 then
    if operation_type == "minus" || (operation_type == "mix" && coin) then
      if num1 ≤ num2 then
        ([num2 + swap_pad, num1], ['-'])
      else
        ([num1, num2], ['-'])
    else
      ([num1, num2], ['+'])
  else
    (multi,
      if operation_type == "plus" || operation_type == "mix" then
        List.replicate (n_numbers - 1) '+'
      else [])

/- ----------------------------------------------------------------
   genlatex.py, lines 44-64: serialization of the generated problem.
   In the source `n_numbers = len(numbers)` throughout; the loop emits
   numbers[0..n-2] bare, then operators[-1] next to numbers[-1], joined by
   " \\⏎" (space, two backslashes, newline), then " \\⏎ \hline ", wrapped in
   "$ \begin{array}{r}⏎ ... ⏎\end{array} $".  `operators[-1]` (and
   `numbers[-1]`) raise IndexError on an empty list, modelled as `none`.
   ---------------------------------------------------------------- -/

def sep4 : List Char := [' ', '\\', '\\', '\n']

def hlineSeg : List Char := [' ', '\\', 'h', 'l', 'i', 'n', 'e', ' ']

def bArrR : List Char :=
  ['\\', 'b', 'e', 'g', 'i', 'n', '{', 'a', 'r', 'r', 'a', 'y', '}', '{', 'r', '}']

def eArr : List Char := ['\\', 'e', 'n', 'd', '{', 'a', 'r', 'r', 'a', 'y', '}']

def serialize_problem (numbers : List Nat) (operators : List Char) : Option (List Char) :=
  match numbers.getLast?, operators.getLast? with
  | some lastNum, some lastOp =>
    some ('$' :: ' ' :: bArrR ++ '\n' ::
      (List.intercalate sep4
          ((numbers.dropLast.map fun m => ' ' :: natDigits m ++ [' ']) ++
            [' ' :: lastOp :: natDigits lastNum ++ [' ']]) ++ sep4 ++ hlineSeg) ++
      '\n' :: eArr ++ [' ', '$'])
  | _, _ => none

/-- genlatex.py, lines 4-64: generation followed by serialization. -/
def generate_problem_latex (operation_type : String) (n_numbers num1 num2 swap_pad : Nat)
    (coin : Bool) (multi : List Nat) : Option (List Char) :=
  serialize_problem
    (gen_numbers_operators operation_type n_numbers num1 num2 swap_pad coin multi).1
    (gen_numbers_operators operation_type n_numbers num1 num2 swap_pad coin multi).2

/-- C1: the spec says generation is total, but evaluating the synthesizer at
operation `minus` with a drawn operand count of 3 (which `randint(2, 4)`
produces whenever the stack height is 3 or 4) leaves the operator list empty,
so the `operators[-1]` lookup fails and no problem is produced. -/
theorem c1_minus_three_operands_fails :
    generate_problem_latex "minus" 3 500 50 20 true [1, 2, 3] = none := by
  decide

/-- C2: at operation `minus` with a drawn operand count of 3, the generated
operator list has length 0, not length 2, and contains no additions. -/
theorem c2_minus_three_operator_list_empty :
    (gen_numbers_operators "minus" 3 500 50 20 true [1, 2, 3]).2.length = 0 ∧
      (gen_numbers_operators "minus" 3 500 50 20 true [1, 2, 3]).1.length = 3 := by
  decide

/-- C3: whenever a 2-operand problem is generated with the subtraction
operator, the first generated operand is at least the second, for every
sequence of draws. -/
theorem c3_subtraction_first_ge_second (operation_type : String)
    (num1 num2 swap_pad : Nat) (coin : Bool) (multi : List Nat)
    (h : (gen_numbers_operators operation_type 2 num1 num2 swap_pad coin multi).2 = ['-']) :
    (gen_numbers_operators operation_type 2 num1 num2 swap_pad coin multi).1.length = 2 ∧
      (gen_numbers_operators operation_type 2 num1 num2 swap_pad coin multi).1.getD 1 0 ≤
        (gen_numbers_operators operation_type 2 num1 num2 swap_pad coin multi).1.getD 0 0 := by
  unfold gen_numbers_operators at h ⊢
  split_ifs at h ⊢ with hn hb hle
  · refine ⟨by simp, ?_⟩
    simp only [List.getD_cons_zero, List.getD_cons_succ]
    omega
  · refine ⟨by simp, ?_⟩
    simp only [List.getD_cons_zero, List.getD_cons_succ]
    omega
  · simp at h
  all_goals exact absurd rfl hn

/-- C3 witness: a concrete subtraction draw (num1 = 10 ≤ num2 = 50 triggers the
fixup) satisfying the theorem's hypothesis. -/
theorem c3_subtraction_witness :
    (gen_numbers_operators "minus" 2 10 50 15 true []).1.length = 2 ∧
      (gen_numbers_operators "minus" 2 10 50 15 true []).1.getD 1 0 ≤
        (gen_numbers_operators "minus" 2 10 50 15 true []).1.getD 0 0 :=
  c3_subtraction_first_ge_second "minus" 10 50 15 true [] (by decide)

/- ----------------------------------------------------------------
   latex_to_image.py, lines 89-134: the block layout parser.
   `parsed_lines_data` entries are `{'type': 'hline'}` or
   `{'type': 'number', 'operator': op, 'number_string': s}` with `op` the
   empty string or a single sign character; the operator is modelled as a
   `List Char` that is `[]` or `[c]`.
   ---------------------------------------------------------------- -/

inductive PLine where
  | hline : PLine
  | number (operator : List Char) (number_string : List Char) : PLine
deriving DecidableEq

structure BlockParse where
  parsed_lines_data : List PLine
  max_number_part_len : Nat
  has_operator_column : Bool
deriving DecidableEq

def hlineLit : List Char := "\\hline".data

/-- One iteration of the loop at latex_to_image.py lines 100-124: strip the
raw line, skip it if empty, classify it as a rule line when it contains
`\hline`, otherwise as a number line whose leading `+`/`-` (if any) becomes
the operator, the rest (re-stripped) the digit text. -/
def parseRawLine (st : BlockParse) (raw : List Char) : BlockParse :=
  match stripL raw with
  | [] => st
  | c :: rest =>
    if containsPat hlineLit (c :: rest) then
      { st with parsed_lines_data := st.parsed_lines_data ++ [PLine.hline] }
    else if c = '+' || c = '-' then
      { parsed_lines_data := st.parsed_lines_data ++ [PLine.number [c] (stripL rest)],
        max_number_part_len := max st.max_number_part_len (stripL rest).length,
        has_operator_column := true }
    else
      { parsed_lines_data := st.parsed_lines_data ++ [PLine.number [] (c :: rest)],
        max_number_part_len := max st.max_number_part_len (c :: rest).length,
        has_operator_column := st.has_operator_column }

def ampLit : List Char := ['&']

def dblBackslash : List Char := ['\\', '\\']

/-- latex_to_image.py lines 89-124: strip the array wrapper and the column
separators, split on the line marker `\\`, and fold the line parser. -/
def parse_block (latex_block : List Char) : BlockParse :=
  (splitOnL dblBackslash
      (removeAll ampLit (removeAll eArr (removeAll bArrR latex_block)))).foldl
    parseRawLine ⟨[], 0, false⟩

/-- latex_to_image.py line 128. -/
def operator_col_width (st : BlockParse) : Nat :=
  if st.has_operator_column then 2 else 0

/-- latex_to_image.py lines 132-134 (`min_hline_width = 5`). -/
def final_display_width (st : BlockParse) : Nat :=
  max (st.max_number_part_len + operator_col_width st) 5

def isNumberLine : PLine → Bool
  | PLine.number _ _ => true
  | PLine.hline => false

def isSignedLine : PLine → Bool
  | PLine.number (_ :: _) _ => true
  | _ => false

def countNumberLines (l : List PLine) : Nat := (l.filter isNumberLine).length

def countHlineLines (l : List PLine) : Nat := (l.filter fun p => !isNumberLine p).length

def countSignedLines (l : List PLine) : Nat := (l.filter isSignedLine).length

/-- Each parsed raw line either leaves the state unchanged, appends a rule
line (widths untouched), or appends exactly one number line. -/
theorem parseRawLine_step (st : BlockParse) (raw : List Char) :
    (parseRawLine st raw = st ∨
      parseRawLine st raw =
        { st with parsed_lines_data := st.parsed_lines_data ++ [PLine.hline] }) ∨
    countNumberLines (parseRawLine st raw).parsed_lines_data =
      countNumberLines st.parsed_lines_data + 1 := by
  unfold parseRawLine
  cases hs : stripL raw with
  | nil => exact Or.inl (Or.inl rfl)
  | cons c rest =>
    dsimp only
    split_ifs with h1 h2
    · exact Or.inl (Or.inr rfl)
    · right
      simp [countNumberLines, List.filter_append, isNumberLine]
    · right
      simp [countNumberLines, List.filter_append, isNumberLine]

theorem fold_parse_count_mono (ls : List (List Char)) (st : BlockParse) :
    countNumberLines st.parsed_lines_data ≤
      countNumberLines (ls.foldl parseRawLine st).parsed_lines_data := by
  induction ls generalizing st with
  | nil => simp
  | cons l ls ih =>
    refine le_trans ?_ (ih (parseRawLine st l))
    rcases parseRawLine_step st l with (h | h) | h
    · rw [h]
    · rw [h]
      simp [countNumberLines, List.filter_append, isNumberLine]
    · omega

theorem fold_parse_no_number (ls : List (List Char)) (st : BlockParse)
    (h : countNumberLines (ls.foldl parseRawLine st).parsed_lines_data =
      countNumberLines st.parsed_lines_data) :
    (ls.foldl parseRawLine st).max_number_part_len = st.max_number_part_len ∧
      (ls.foldl parseRawLine st).has_operator_column = st.has_operator_column := by
  induction ls generalizing st with
  | nil => simp
  | cons l ls ih =>
    have hmono := fold_parse_count_mono ls (parseRawLine st l)
    rcases parseRawLine_step st l with (hstep | hstep) | hstep
    · simp only [List.foldl_cons, hstep] at h ⊢
      exact ih st h
    · simp only [List.foldl_cons, hstep] at h ⊢
      have hc : countNumberLines (st.parsed_lines_data ++ [PLine.hline]) =
          countNumberLines st.parsed_lines_data := by
        simp [countNumberLines, List.filter_append, isNumberLine]
      have := ih { st with parsed_lines_data := st.parsed_lines_data ++ [PLine.hline] }
      rw [hc] at this
      exact this h
    · exfalso
      simp only [List.foldl_cons] at h
      omega

/-- C9: a block whose parse contains no number lines parses without failure to
`max_number_part_len = 0`, no operator column, and the minimum rule width 5
(the formula `max(numberWidth + operatorColumnWidth, 5)` collapsing). -/
theorem c9_degenerate_block (block : List Char)
    (h : countNumberLines (parse_block block).parsed_lines_data = 0) :
    (parse_block block).max_number_part_len = 0 ∧
      operator_col_width (parse_block block) = 0 ∧
      final_display_width (parse_block block) = 5 := by
  unfold parse_block at h ⊢
  have h0 : countNumberLines (⟨[], 0, false⟩ : BlockParse).parsed_lines_data = 0 := by
    simp [countNumberLines]
  obtain ⟨hmax, hop⟩ := fold_parse_no_number _ ⟨[], 0, false⟩ (by rw [h, h0])
  refine ⟨hmax, ?_, ?_⟩
  · simp [operator_col_width, hop]
  · simp [final_display_width, operator_col_width, hop, hmax]

def degBlock : List Char :=
  "\\begin\x7barray\x7d\x7br\x7d\n \\hline \n\\end\x7barray\x7d".data

/-- C9 witness: the degenerate block consisting of a lone rule line. -/
theorem c9_degenerate_witness :
    countNumberLines (parse_block degBlock).parsed_lines_data = 0 ∧
      (parse_block degBlock).max_number_part_len = 0 ∧
      operator_col_width (parse_block degBlock) = 0 ∧
      final_display_width (parse_block degBlock) = 5 :=
  ⟨by decide, c9_degenerate_block degBlock (by decide)⟩

/- ----------------------------------------------------------------
   Toolkit lemmas about the string primitives.
   ---------------------------------------------------------------- -/

theorem leadsWith_iff (p s : List Char) : leadsWith p s = true ↔ ∃ t, s = p ++ t := by
  induction p generalizing s with
  | nil => simp [leadsWith]
  | cons a as ih =>
    cases s with
    | nil => simp [leadsWith]
    | cons b bs =>
      simp only [leadsWith, Bool.and_eq_true, beq_iff_eq, ih, List.cons_append]
      constructor
      · rintro ⟨rfl, t, rfl⟩
        exact ⟨t, rfl⟩
      · rintro ⟨t, h⟩
        injection h with h1 h2
        exact ⟨h1.symm, t, h2⟩

/-- If `pat` matches at the start of `t ++ b`, then either all of `pat` lies in
`t`, or `t` is a proper initial segment of `pat`. -/
theorem leadsWith_append_cases (pat t b : List Char)
    (h : leadsWith pat (t ++ b) = true) :
    (∃ u, t = pat ++ u) ∨ (t.length ≤ pat.length ∧ t = pat.take t.length) := by
  rw [leadsWith_iff] at h
  obtain ⟨u, hu⟩ := h
  rcases Nat.le_total pat.length t.length with hle | hle
  · left
    have hp : pat = t.take pat.length := by
      have h1 : (t ++ b).take pat.length = t.take pat.length :=
        List.take_append_of_le_length hle
      rw [hu, List.take_left] at h1
      exact h1
    refine ⟨t.drop pat.length, ?_⟩
    conv_lhs => rw [← List.take_append_drop pat.length t]
    rw [← hp]
  · right
    refine ⟨hle, ?_⟩
    have h1 : (t ++ b).take t.length = (pat ++ u).take t.length := by rw [hu]
    rw [List.take_left, List.take_append_of_le_length hle] at h1
    exact h1

/-- No occurrence of `pat` starts inside `a` when `a ++ b` is scanned. -/
def NoHit (pat b a : List Char) : Prop :=
  ∀ t, t <:+ a → t ≠ [] → leadsWith pat (t ++ b) = false

theorem getLast?_of_suffix {t a : List Char} (ht : t <:+ a) (hne : t ≠ []) :
    a.getLast? = t.getLast? := by
  obtain ⟨u, rfl⟩ := ht
  exact List.getLast?_append_of_ne_nil u hne

theorem noHit_of_char (pat b a : List Char) (x : Char) (hx : x ∈ pat)
    (ha : ∀ y ∈ a, y ≠ x)
    (hlast : ∀ cl, a.getLast? = some cl → cl ∉ pat) :
    NoHit pat b a := by
  intro t ht hne
  by_contra hcon
  rw [Bool.not_eq_false] at hcon
  rcases leadsWith_append_cases pat t b hcon with ⟨u, hu⟩ | ⟨hle, hu⟩
  · have hxt : x ∈ t := by
      rw [hu]; exact List.mem_append_left _ hx
    exact ha x (ht.subset hxt) rfl
  · have h3 : t.getLast hne ∈ t := List.getLast_mem hne
    have h4 : t.getLast hne ∈ pat :=
      List.take_subset _ _ (show t.getLast hne ∈ List.take t.length pat by
        rw [← hu]; exact h3)
    have hla : a.getLast? = some (t.getLast hne) := by
      rw [getLast?_of_suffix ht hne]
      exact List.getLast?_eq_getLast t hne
    exact hlast _ hla h4

/-- Decidable occurrence/overlap check for a concrete scan region. -/
def cleanB (pat : List Char) : List Char → Bool
  | [] => true
  | c :: rest => !(leadsWith pat (c :: rest) || leadsWith (c :: rest) pat) && cleanB pat rest

theorem cleanB_suffix {pat a t : List Char} (h : cleanB pat a = true)
    (ht : t <:+ a) (hne : t ≠ []) :
    leadsWith pat t = false ∧ leadsWith t pat = false := by
  induction a with
  | nil =>
    obtain rfl := List.suffix_nil.mp ht
    exact absurd rfl hne
  | cons c rest ih =>
    simp only [cleanB, Bool.and_eq_true, Bool.not_eq_true', Bool.or_eq_false_iff] at h
    rcases List.suffix_cons_iff.mp ht with rfl | ht'
    · exact h.1
    · exact ih h.2 ht'

theorem noHit_of_cleanB (pat b a : List Char) (h : cleanB pat a = true) :
    NoHit pat b a := by
  intro t ht hne
  obtain ⟨h1, h2⟩ := cleanB_suffix h ht hne
  by_contra hcon
  rw [Bool.not_eq_false] at hcon
  rcases leadsWith_append_cases pat t b hcon with ⟨u, hu⟩ | ⟨hle, hu⟩
  · have : leadsWith pat t = true := (leadsWith_iff _ _).mpr ⟨u, hu⟩
    rw [this] at h1
    cases h1
  · have : leadsWith t pat = true := by
      rw [leadsWith_iff]
      refine ⟨pat.drop t.length, ?_⟩
      conv_lhs => rw [← List.take_append_drop t.length pat]
      rw [← hu]
    rw [this] at h2
    cases h2

theorem noHit_append {pat a1 a2 b : List Char}
    (h1 : NoHit pat (a2 ++ b) a1) (h2 : NoHit pat b a2) :
    NoHit pat b (a1 ++ a2) := by
  intro t ht hne
  induction a1 with
  | nil =>
    simp only [List.nil_append] at ht
    exact h2 t ht hne
  | cons c a1' ih =>
    rcases List.suffix_cons_iff.mp ht with rfl | ht'
    · have := h1 (c :: a1') List.suffix_rfl (by simp)
      simpa [List.append_assoc] using this
    · exact ih (fun t' ht'' hne' => h1 t' (ht''.trans (List.suffix_cons c a1')) hne') ht'

theorem noHit_mono_b {pat a b : List Char}
    (h : ∀ t, t <:+ a → t ≠ [] → leadsWith pat (t ++ b) = false) : NoHit pat b a := h

theorem leadsWith_self_append (pat s : List Char) : leadsWith pat (pat ++ s) = true :=
  (leadsWith_iff _ _).mpr ⟨s, rfl⟩

theorem removeAllAux_cons_zero (pat : List Char) (c : Char) (rest : List Char) :
    removeAllAux pat (c :: rest) 0 =
      if leadsWith pat (c :: rest) && !pat.isEmpty then
        removeAllAux pat rest (pat.length - 1)
      else c :: removeAllAux pat rest 0 := rfl

theorem splitOnAux_cons_zero (sep : List Char) (c : Char) (rest acc : List Char) :
    splitOnAux sep (c :: rest) 0 acc =
      if leadsWith sep (c :: rest) && !sep.isEmpty then
        acc.reverse :: splitOnAux sep rest (sep.length - 1) []
      else splitOnAux sep rest 0 (c :: acc) := rfl

theorem splitOnceAfter_cons (pat : List Char) (c : Char) (rest : List Char) :
    splitOnceAfter pat (c :: rest) =
      if leadsWith pat (c :: rest) && !pat.isEmpty then
        some ([], rest.drop (pat.length - 1))
      else
        match splitOnceAfter pat rest with
        | some (x, y) => some (c :: x, y)
        | none => none := rfl

/-- `splitOnceAfter` finds the designated occurrence when none starts
earlier. -/
theorem splitOnceAfter_spec (pat pre suf : List Char) (hpat : pat ≠ [])
    (h : NoHit pat (pat ++ suf) pre) :
    splitOnceAfter pat (pre ++ pat ++ suf) = some (pre, suf) := by
  induction pre with
  | nil =>
    cases pat with
    | nil => exact absurd rfl hpat
    | cons p ps =>
      have hl : leadsWith (p :: ps) (p :: (ps ++ suf)) = true := by
        rw [← List.cons_append]; exact leadsWith_self_append _ _
      simp only [List.nil_append, List.cons_append]
      rw [splitOnceAfter_cons, if_pos (by simp [hl, List.isEmpty])]
      have hd : (ps ++ suf).drop ((p :: ps).length - 1) = suf := by
        simp only [List.length_cons, Nat.add_sub_cancel]
        exact List.drop_left ps suf
      rw [hd]
  | cons c pre ih =>
    have hhit : leadsWith pat (c :: pre ++ (pat ++ suf)) = false :=
      h (c :: pre) List.suffix_rfl (by simp)
    have ihh := ih fun t ht hne => h t (ht.trans (List.suffix_cons c pre)) hne
    simp only [List.cons_append, List.append_assoc] at hhit ⊢
    rw [splitOnceAfter_cons, if_neg (by simp [hhit])]
    simp only [List.append_assoc] at ihh
    rw [ihh]

/-- After a match, the skip counter consumes exactly the matched text. -/
theorem removeAllAux_skip (pat t s : List Char) :
    removeAllAux pat (t ++ s) t.length = removeAllAux pat s 0 := by
  induction t with
  | nil => rfl
  | cons c t ih => simpa [removeAllAux] using ih

theorem removeAll_head_match (pat s : List Char) (hpat : pat ≠ []) :
    removeAll pat (pat ++ s) = removeAll pat s := by
  cases pat with
  | nil => exact absurd rfl hpat
  | cons p ps =>
    show removeAllAux (p :: ps) (p :: (ps ++ s)) 0 = removeAllAux (p :: ps) s 0
    rw [removeAllAux_cons_zero, if_pos]
    · have h1 : (p :: ps).length - 1 = ps.length := by simp
      rw [h1]
      exact removeAllAux_skip (p :: ps) ps s
    · refine (Bool.and_eq_true _ _).mpr ⟨?_, by simp [List.isEmpty]⟩
      rw [← List.cons_append]
      exact leadsWith_self_append _ _

theorem removeAll_no (pat a : List Char) (h : NoHit pat [] a) :
    removeAll pat a = a := by
  induction a with
  | nil => rfl
  | cons c rest ih =>
    have hhit : leadsWith pat (c :: rest ++ []) = false :=
      h (c :: rest) List.suffix_rfl (by simp)
    rw [List.append_nil] at hhit
    show removeAllAux pat (c :: rest) 0 = c :: rest
    rw [removeAllAux_cons_zero, if_neg (by simp [hhit])]
    have := ih fun t ht hne => h t (ht.trans (List.suffix_cons c rest)) hne
    exact congrArg (c :: ·) this

theorem removeAll_append (pat a b : List Char) (h : NoHit pat b a) :
    removeAll pat (a ++ b) = a ++ removeAll pat b := by
  induction a with
  | nil => simp
  | cons c rest ih =>
    have hhit : leadsWith pat (c :: rest ++ b) = false :=
      h (c :: rest) List.suffix_rfl (by simp)
    simp only [List.cons_append] at hhit
    show removeAllAux pat (c :: (rest ++ b)) 0 = (c :: rest) ++ removeAllAux pat b 0
    rw [removeAllAux_cons_zero, if_neg (by simp [hhit])]
    have := ih fun t ht hne => h t (ht.trans (List.suffix_cons c rest)) hne
    rw [List.cons_append]
    exact congrArg (c :: ·) this

theorem splitOnAux_skip (sep t s acc : List Char) :
    splitOnAux sep (t ++ s) t.length acc = splitOnAux sep s 0 acc := by
  induction t with
  | nil => rfl
  | cons c t ih => simpa [splitOnAux] using ih

theorem splitOnAux_append (sep a b acc : List Char) (hsep : sep ≠ [])
    (h : NoHit sep (sep ++ b) a) :
    splitOnAux sep (a ++ sep ++ b) 0 acc =
      (acc.reverse ++ a) :: splitOnAux sep b 0 [] := by
  induction a generalizing acc with
  | nil =>
    cases sep with
    | nil => exact absurd rfl hsep
    | cons p ps =>
      simp only [List.nil_append, List.append_nil, List.cons_append]
      rw [splitOnAux_cons_zero, if_pos]
      · have h1 : (p :: ps).length - 1 = ps.length := by simp
        rw [h1, splitOnAux_skip (p :: ps) ps b []]
      · refine (Bool.and_eq_true _ _).mpr ⟨?_, by simp [List.isEmpty]⟩
        rw [← List.cons_append]
        exact leadsWith_self_append _ _
  | cons c rest ih =>
    have hhit : leadsWith sep (c :: rest ++ (sep ++ b)) = false :=
      h (c :: rest) List.suffix_rfl (by simp)
    simp only [List.cons_append, List.append_assoc] at hhit
    have hshape : (c :: rest) ++ sep ++ b = c :: (rest ++ sep ++ b) := by simp
    rw [hshape, splitOnAux_cons_zero,
      if_neg (by simp only [List.append_assoc]; simp [hhit])]
    have := ih (c :: acc) (fun t ht hne => h t (ht.trans (List.suffix_cons c rest)) hne)
    rw [this]
    simp

theorem splitOnAux_no (sep a acc : List Char) (h : NoHit sep [] a) :
    splitOnAux sep a 0 acc = [acc.reverse ++ a] := by
  induction a generalizing acc with
  | nil => simp [splitOnAux]
  | cons c rest ih =>
    have hhit : leadsWith sep (c :: rest ++ []) = false :=
      h (c :: rest) List.suffix_rfl (by simp)
    rw [List.append_nil] at hhit
    rw [splitOnAux_cons_zero, if_neg (by simp [hhit])]
    have := ih (c :: acc) (fun t ht hne => h t (ht.trans (List.suffix_cons c rest)) hne)
    rw [this]
    simp

theorem splitOnL_append (sep a b : List Char) (hsep : sep ≠ [])
    (h : NoHit sep (sep ++ b) a) :
    splitOnL sep (a ++ sep ++ b) = a :: splitOnL sep b := by
  unfold splitOnL
  rw [splitOnAux_append sep a b [] hsep h]
  simp

theorem splitOnL_no (sep a : List Char) (h : NoHit sep [] a) :
    splitOnL sep a = [a] := by
  unfold splitOnL
  rw [splitOnAux_no sep a [] h]
  simp

/- ----------------------------------------------------------------
   Strip and character-class lemmas.
   ---------------------------------------------------------------- -/

theorem dropWhile_head_false (p : Char → Bool) (c : Char) (l : List Char)
    (h : p c = false) : (c :: l).dropWhile p = c :: l := by
  simp [List.dropWhile_cons, h]

theorem stripL_sandwich (a X b : List Char) (ha : ∀ x ∈ a, isPySpace x = true)
    (hb : ∀ x ∈ b, isPySpace x = true) (hX : X ≠ [])
    (hh : ∀ c, X.head? = some c → isPySpace c = false)
    (hl : ∀ c, X.getLast? = some c → isPySpace c = false) :
    stripL (a ++ X ++ b) = X := by
  unfold stripL
  rw [List.append_assoc, List.dropWhile_append_of_pos (by simpa using ha)]
  cases X with
  | nil => exact absurd rfl hX
  | cons x xs =>
    rw [List.cons_append, dropWhile_head_false _ _ _ (hh x rfl)]
    rw [show x :: (xs ++ b) = (x :: xs) ++ b from (List.cons_append x xs b).symm]
    rw [List.reverse_append,
      List.dropWhile_append_of_pos (by simpa using fun x hx => hb x hx)]
    cases hrev : (x :: xs).reverse with
    | nil => exact absurd (List.reverse_eq_nil_iff.mp hrev) (by simp)
    | cons cl rest =>
      have hcl : (x :: xs).getLast? = some cl := by
        rw [← List.head?_reverse, hrev]; rfl
      rw [dropWhile_head_false _ _ _ (hl cl hcl), ← hrev, List.reverse_reverse]

theorem stripL_of_clean (X : List Char) (hX : X ≠ [])
    (hh : ∀ c, X.head? = some c → isPySpace c = false)
    (hl : ∀ c, X.getLast? = some c → isPySpace c = false) :
    stripL X = X := by
  have := stripL_sandwich [] X [] (by simp) (by simp) hX hh hl
  simpa using this

/-- A string avoiding the first character of `pat` contains no occurrence. -/
theorem containsPat_eq_false (p : Char) (ps s : List Char) (h : ∀ x ∈ s, x ≠ p) :
    containsPat (p :: ps) s = false := by
  induction s with
  | nil => rfl
  | cons c rest ih =>
    have h1 : leadsWith (p :: ps) (c :: rest) = false := by
      cases hpc : p == c with
      | false => simp [leadsWith, hpc]
      | true =>
        exact absurd (beq_iff_eq.mp hpc).symm (h c (by simp))
    simp only [containsPat, h1, Bool.false_or]
    exact ih fun x hx => h x (List.mem_cons_of_mem c hx)

/- ----------------------------------------------------------------
   Digit-character lemmas: every character of `natDigits n` is a decimal
   digit, and digits avoid all the structural characters of the grammar.
   ---------------------------------------------------------------- -/

theorem digitChar_isDigit : ∀ d, d < 10 → (Nat.digitChar d).isDigit = true := by
  decide

theorem toDigitsCore_digits :
    ∀ (fuel n : Nat) (ds : List Char), (∀ x ∈ ds, x.isDigit = true) →
      ∀ x ∈ Nat.toDigitsCore 10 fuel n ds, x.isDigit = true := by
  intro fuel
  induction fuel with
  | zero => intro n ds hds x hx; exact hds x hx
  | succ fuel ih =>
    intro n ds hds x hx
    unfold Nat.toDigitsCore at hx
    have hmod : n % 10 < 10 := Nat.mod_lt _ (by omega)
    have hd : (Nat.digitChar (n % 10)).isDigit = true := digitChar_isDigit _ hmod
    by_cases hz : n / 10 = 0
    · rw [if_pos hz] at hx
      rcases List.mem_cons.mp hx with rfl | hx'
      · exact hd
      · exact hds x hx'
    · rw [if_neg hz] at hx
      refine ih (n / 10) (Nat.digitChar (n % 10) :: ds) ?_ x hx
      intro y hy
      rcases List.mem_cons.mp hy with rfl | hy'
      · exact hd
      · exact hds y hy'

theorem natDigits_digits (n : Nat) : ∀ x ∈ natDigits n, x.isDigit = true :=
  toDigitsCore_digits (n + 1) n [] (by simp)

theorem toDigitsCore_ne_nil :
    ∀ (fuel n : Nat) (ds : List Char), 1 ≤ fuel ∨ ds ≠ [] →
      Nat.toDigitsCore 10 fuel n ds ≠ [] := by
  intro fuel
  induction fuel with
  | zero =>
    intro n ds h
    rcases h with h | h
    · omega
    · exact h
  | succ fuel ih =>
    intro n ds _
    unfold Nat.toDigitsCore
    by_cases hz : n / 10 = 0
    · rw [if_pos hz]; simp
    · rw [if_neg hz]
      exact ih (n / 10) _ (Or.inr (by simp))

theorem natDigits_ne_nil (n : Nat) : natDigits n ≠ [] :=
  toDigitsCore_ne_nil (n + 1) n [] (Or.inl (by omega))

theorem digit_ne (x c : Char) (hx : x.isDigit = true) (hc : c.isDigit = false) :
    x ≠ c := by
  intro h
  rw [h, hc] at hx
  cases hx

theorem digit_not_space (x : Char) (h : x.isDigit = true) : isPySpace x = false := by
  by_contra hc
  rw [Bool.not_eq_false] at hc
  simp only [isPySpace, Bool.or_eq_true, decide_eq_true_eq] at hc
  rcases hc with ((((h1 | h1) | h1) | h1) | h1) | h1 <;> subst h1 <;>
    exact absurd h (by decide)

/- ----------------------------------------------------------------
   Round trip: the structure of a serialized block and its parse.
   ---------------------------------------------------------------- -/

/-- The text between the two `$` delimiters of a full block string. -/
def innerOf (b : List Char) : List Char := (b.drop 1).dropLast

/-- The trimmed array-environment text: what extraction hands to the parser
for one block (`array_match.group(1).strip()` in latex_to_image.py). -/
def arrayPartOfBlock (b : List Char) : List Char := stripL (innerOf b)

/-- A non-final operand line of the serialized block (`f" {numbers[i]} "`). -/
def plainPart (m : Nat) : List Char := ' ' :: natDigits m ++ [' ']

/-- The final operand line (`f" {last_op_char}{numbers[n_numbers-1]} "`). -/
def opPart (op : Char) (m : Nat) : List Char := ' ' :: op :: natDigits m ++ [' ']

/-- The body of the array environment built at genlatex.py lines 45-61. -/
def problemLatex (ns : List Nat) (op : Char) (ln : Nat) : List Char :=
  List.intercalate sep4 (ns.map plainPart ++ [opPart op ln]) ++ sep4 ++ hlineSeg

theorem serialize_eq (numbers : List Nat) (operators : List Char) (s : List Char)
    (h : serialize_problem numbers operators = some s) :
    ∃ lastNum lastOp, numbers.getLast? = some lastNum ∧
      operators.getLast? = some lastOp ∧
      s = '$' :: ' ' :: bArrR ++ '\n' :: problemLatex numbers.dropLast lastOp lastNum ++
        '\n' :: eArr ++ [' ', '$'] := by
  unfold serialize_problem at h
  cases hn : numbers.getLast? with
  | none => rw [hn] at h; cases h
  | some lastNum =>
    cases ho : operators.getLast? with
    | none => rw [hn, ho] at h; cases h
    | some lastOp =>
      rw [hn, ho] at h
      refine ⟨lastNum, lastOp, rfl, rfl, ?_⟩
      have h' := Option.some.inj h
      rw [← h']
      rfl

theorem intercalate_single (sep p : List Char) : List.intercalate sep [p] = p := by
  simp [List.intercalate, List.intersperse]

theorem intercalate_cons2 (sep p q : List Char) (rest : List (List Char)) :
    List.intercalate sep (p :: q :: rest) =
      p ++ sep ++ List.intercalate sep (q :: rest) := by
  simp [List.intercalate, List.intersperse, List.append_assoc]

theorem intercalate_chars (P : Char → Prop) (sep : List Char)
    (parts : List (List Char)) (hsep : ∀ y ∈ sep, P y)
    (hp : ∀ p ∈ parts, ∀ y ∈ p, P y) :
    ∀ y ∈ List.intercalate sep parts, P y := by
  induction parts with
  | nil => simp [List.intercalate, List.intersperse]
  | cons p rest ih =>
    cases rest with
    | nil =>
      rw [intercalate_single]
      exact hp p (by simp)
    | cons q rest2 =>
      rw [intercalate_cons2]
      intro y hy
      rcases List.mem_append.mp hy with hy1 | hy2
      · rcases List.mem_append.mp hy1 with hy1a | hy1b
        · exact hp p (by simp) y hy1a
        · exact hsep y hy1b
      · exact ih (fun r hr => hp r (List.mem_cons_of_mem p hr)) y hy2

/-- The character classes occurring in the body of a serialized block. -/
def SerChar (op : Char) (y : Char) : Prop :=
  y.isDigit = true ∨ y ∈ ([' ', '\\', '\n', 'h', 'l', 'i', 'n', 'e'] : List Char) ∨ y = op

theorem plainPart_chars (op : Char) (m : Nat) : ∀ y ∈ plainPart m, SerChar op y := by
  intro y hy
  rcases List.mem_cons.mp hy with rfl | hy2
  · exact Or.inr (Or.inl (by simp))
  · rcases List.mem_append.mp hy2 with hy3 | hy4
    · exact Or.inl (natDigits_digits m y hy3)
    · rw [List.mem_singleton.mp hy4]
      exact Or.inr (Or.inl (by simp))

theorem opPart_chars (op : Char) (m : Nat) : ∀ y ∈ opPart op m, SerChar op y := by
  intro y hy
  rcases List.mem_cons.mp hy with rfl | hy1
  · exact Or.inr (Or.inl (by simp))
  · rcases List.mem_cons.mp hy1 with rfl | hy2
    · exact Or.inr (Or.inr rfl)
    · rcases List.mem_append.mp hy2 with hy3 | hy4
      · exact Or.inl (natDigits_digits m y hy3)
      · rw [List.mem_singleton.mp hy4]
        exact Or.inr (Or.inl (by simp))

theorem sep4_chars (op : Char) : ∀ y ∈ sep4, SerChar op y := by
  intro y hy
  fin_cases hy <;> exact Or.inr (Or.inl (by simp))

theorem hlineSeg_chars (op : Char) : ∀ y ∈ hlineSeg, SerChar op y := by
  intro y hy
  fin_cases hy <;> exact Or.inr (Or.inl (by simp))

theorem problemLatex_chars (ns : List Nat) (op : Char) (ln : Nat) :
    ∀ y ∈ problemLatex ns op ln, SerChar op y := by
  intro y hy
  unfold problemLatex at hy
  rcases List.mem_append.mp hy with hy1 | hy2
  · rcases List.mem_append.mp hy1 with hy1a | hy1b
    · refine intercalate_chars (SerChar op) sep4 _ (sep4_chars op) ?_ y hy1a
      intro p hp
      rcases List.mem_append.mp hp with hpa | hpb
      · obtain ⟨m, _, rfl⟩ := List.mem_map.mp hpa
        exact plainPart_chars op m
      · rw [List.mem_singleton.mp hpb]
        exact opPart_chars op ln
    · exact sep4_chars op y hy1b
  · exact hlineSeg_chars op y hy2

theorem serChar_ne (op y c : Char) (hop : op = '+' ∨ op = '-') (hy : SerChar op y)
    (hc : c.isDigit = false)
    (hlit : c ∉ ([' ', '\\', '\n', 'h', 'l', 'i', 'n', 'e', '+', '-'] : List Char)) :
    y ≠ c := by
  rcases hy with hd | hl | rfl
  · exact digit_ne y c hd hc
  · intro h
    rw [h] at hl
    apply hlit
    have hsub : ([' ', '\\', '\n', 'h', 'l', 'i', 'n', 'e'] : List Char) ⊆
        ([' ', '\\', '\n', 'h', 'l', 'i', 'n', 'e', '+', '-'] : List Char) := by decide
    exact hsub hl
  · rcases hop with rfl | rfl
    · intro h
      rw [← h] at hlit
      exact hlit (by decide)
    · intro h
      rw [← h] at hlit
      exact hlit (by decide)

theorem noHit_nil_of_char (pat a : List Char) (x : Char) (hx : x ∈ pat)
    (ha : ∀ y ∈ a, y ≠ x) : NoHit pat [] a := by
  intro t ht hne
  rw [List.append_nil]
  by_contra hcon
  rw [Bool.not_eq_false, leadsWith_iff] at hcon
  obtain ⟨u, hu⟩ := hcon
  have hxt : x ∈ t := by
    rw [hu]; exact List.mem_append_left _ hx
  exact ha x (ht.subset hxt) rfl

theorem mem_of_getLast?_eq {l : List Char} {c : Char} (h : l.getLast? = some c) :
    c ∈ l := by
  cases l with
  | nil => cases h
  | cons a as =>
    have hne : a :: as ≠ [] := by simp
    rw [List.getLast?_eq_getLast _ hne] at h
    rw [← Option.some.inj h]
    exact List.getLast_mem hne

theorem mem_of_head?_eq {l : List Char} {c : Char} (h : l.head? = some c) : c ∈ l := by
  cases l with
  | nil => cases h
  | cons a as =>
    rw [show (a :: as).head? = some a from rfl] at h
    rw [← Option.some.inj h]
    exact List.mem_cons_self a as

/-- Splitting the serialized body on `\\`: one chunk per operand line plus the
trailing rule text. -/
theorem split_chunksText (parts : List (List Char)) (tail : List Char)
    (hne : parts ≠ []) (hp : ∀ p ∈ parts, ∀ y ∈ p, y ≠ '\\') :
    splitOnL dblBackslash ('\n' :: (List.intercalate sep4 parts ++ (sep4 ++ tail))) =
      parts.map (fun p => '\n' :: (p ++ [' '])) ++
        splitOnL dblBackslash ('\n' :: tail) := by
  induction parts with
  | nil => exact absurd rfl hne
  | cons p rest ih =>
    cases rest with
    | nil =>
      rw [intercalate_single]
      have hshape : '\n' :: (p ++ (sep4 ++ tail)) =
          ('\n' :: p ++ [' ']) ++ dblBackslash ++ ('\n' :: tail) := by
        simp [sep4, dblBackslash]
      rw [hshape, splitOnL_append]
      · simp
      · simp [dblBackslash]
      · refine noHit_of_char _ _ _ '\\' (by simp [dblBackslash]) ?_ ?_
        · intro y hy
          rcases List.mem_cons.mp hy with rfl | hy2
          · decide
          · rcases List.mem_append.mp hy2 with hy3 | hy4
            · exact hp p (by simp) y hy3
            · rw [List.mem_singleton.mp hy4]; decide
        · intro cl hcl
          have : cl = ' ' := by
            rw [show '\n' :: p ++ [' '] = ('\n' :: p) ++ [' '] from rfl,
              List.getLast?_concat] at hcl
            exact (Option.some.inj hcl).symm
          rw [this]
          decide
    | cons q rest2 =>
      rw [intercalate_cons2]
      have hshape : '\n' :: (p ++ sep4 ++ List.intercalate sep4 (q :: rest2) ++ (sep4 ++ tail)) =
          ('\n' :: p ++ [' ']) ++ dblBackslash ++
            ('\n' :: (List.intercalate sep4 (q :: rest2) ++ (sep4 ++ tail))) := by
        simp [sep4, dblBackslash]
      rw [hshape, splitOnL_append]
      · rw [ih (by simp) (fun r hr => hp r (List.mem_cons_of_mem p hr))]
        simp
      · simp [dblBackslash]
      · refine noHit_of_char _ _ _ '\\' (by simp [dblBackslash]) ?_ ?_
        · intro y hy
          rcases List.mem_cons.mp hy with rfl | hy2
          · decide
          · rcases List.mem_append.mp hy2 with hy3 | hy4
            · exact hp p (by simp) y hy3
            · rw [List.mem_singleton.mp hy4]; decide
        · intro cl hcl
          have : cl = ' ' := by
            rw [show '\n' :: p ++ [' '] = ('\n' :: p) ++ [' '] from rfl,
              List.getLast?_concat] at hcl
            exact (Option.some.inj hcl).symm
          rw [this]
          decide

theorem parseRawLine_plain (st : BlockParse) (raw : List Char) (c : Char)
    (rest : List Char) (hstrip : stripL raw = c :: rest)
    (hnb : ∀ y ∈ c :: rest, y ≠ '\\') (hc : ¬(c = '+' ∨ c = '-')) :
    parseRawLine st raw =
      { parsed_lines_data := st.parsed_lines_data ++ [PLine.number [] (c :: rest)],
        max_number_part_len := max st.max_number_part_len (c :: rest).length,
        has_operator_column := st.has_operator_column } := by
  have hhl : containsPat hlineLit (c :: rest) = false := by
    rw [show hlineLit = '\\' :: ['h', 'l', 'i', 'n', 'e'] from rfl]
    exact containsPat_eq_false _ _ _ hnb
  unfold parseRawLine
  rw [hstrip]
  dsimp only
  rw [if_neg (by simp [hhl]), if_neg (by simp only [Bool.or_eq_true, decide_eq_true_eq]; exact hc)]

theorem parseRawLine_signed (st : BlockParse) (raw : List Char) (c : Char)
    (rest : List Char) (hstrip : stripL raw = c :: rest)
    (hnb : ∀ y ∈ c :: rest, y ≠ '\\') (hc : c = '+' ∨ c = '-') :
    parseRawLine st raw =
      { parsed_lines_data := st.parsed_lines_data ++ [PLine.number [c] (stripL rest)],
        max_number_part_len := max st.max_number_part_len (stripL rest).length,
        has_operator_column := true } := by
  have hhl : containsPat hlineLit (c :: rest) = false := by
    rw [show hlineLit = '\\' :: ['h', 'l', 'i', 'n', 'e'] from rfl]
    exact containsPat_eq_false _ _ _ hnb
  unfold parseRawLine
  rw [hstrip]
  dsimp only
  rw [if_neg (by simp [hhl]),
    if_pos (by simp only [Bool.or_eq_true, decide_eq_true_eq]; exact hc)]

theorem parseRawLine_rule (st : BlockParse) (raw : List Char)
    (hstrip : stripL raw = '\\' :: ['h', 'l', 'i', 'n', 'e']) :
    parseRawLine st raw =
      { st with parsed_lines_data := st.parsed_lines_data ++ [PLine.hline] } := by
  unfold parseRawLine
  rw [hstrip]
  dsimp only
  rw [if_pos (by decide)]

theorem natDigits_head_ok (m : Nat) :
    ∀ c, (natDigits m).head? = some c → isPySpace c = false := fun c hc =>
  digit_not_space c (natDigits_digits m c (mem_of_head?_eq hc))

theorem natDigits_last_ok (m : Nat) :
    ∀ c, (natDigits m).getLast? = some c → isPySpace c = false := fun c hc =>
  digit_not_space c (natDigits_digits m c (mem_of_getLast?_eq hc))

theorem stripL_natDigits (m : Nat) : stripL (natDigits m) = natDigits m :=
  stripL_of_clean _ (natDigits_ne_nil m) (natDigits_head_ok m) (natDigits_last_ok m)

theorem parse_plain_chunk (st : BlockParse) (m : Nat) :
    parseRawLine st ('\n' :: (plainPart m ++ [' '])) =
      { parsed_lines_data := st.parsed_lines_data ++ [PLine.number [] (natDigits m)],
        max_number_part_len := max st.max_number_part_len (natDigits m).length,
        has_operator_column := st.has_operator_column } := by
  have hstrip : stripL ('\n' :: (plainPart m ++ [' '])) = natDigits m := by
    have hshape : '\n' :: (plainPart m ++ [' ']) =
        ['\n', ' '] ++ natDigits m ++ [' ', ' '] := by
      simp [plainPart]
    rw [hshape]
    exact stripL_sandwich _ _ _ (by decide) (by decide) (natDigits_ne_nil m)
      (natDigits_head_ok m) (natDigits_last_ok m)
  obtain ⟨d, ds, hd⟩ := List.exists_cons_of_ne_nil (natDigits_ne_nil m)
  have hdig : ∀ y ∈ natDigits m, y.isDigit = true := natDigits_digits m
  rw [hd] at hstrip
  rw [parseRawLine_plain st _ d ds hstrip
    (fun y hy => digit_ne y '\\' (hdig y (hd ▸ hy)) (by decide))
    (by
      intro hpm
      have hdd : d.isDigit = true := hdig d (by rw [hd]; exact List.mem_cons_self d ds)
      rcases hpm with h | h
      · rw [h] at hdd; exact absurd hdd (by decide)
      · rw [h] at hdd; exact absurd hdd (by decide))]
  rw [← hd]

theorem parse_op_chunk (st : BlockParse) (op : Char) (m : Nat)
    (hop : op = '+' ∨ op = '-') :
    parseRawLine st ('\n' :: (opPart op m ++ [' '])) =
      { parsed_lines_data := st.parsed_lines_data ++ [PLine.number [op] (natDigits m)],
        max_number_part_len := max st.max_number_part_len (natDigits m).length,
        has_operator_column := true } := by
  have hopns : isPySpace op = false := by
    rcases hop with rfl | rfl <;> decide
  have hstrip : stripL ('\n' :: (opPart op m ++ [' '])) = op :: natDigits m := by
    have hshape : '\n' :: (opPart op m ++ [' ']) =
        ['\n', ' '] ++ (op :: natDigits m) ++ [' ', ' '] := by
      simp [opPart]
    rw [hshape]
    refine stripL_sandwich _ _ _ (by decide) (by decide) (by simp) ?_ ?_
    · intro c hc
      rw [← Option.some.inj hc]
      exact hopns
    · intro c hc
      rw [show (op :: natDigits m).getLast? = (natDigits m).getLast? from
        List.getLast?_append_of_ne_nil [op] (natDigits_ne_nil m)] at hc
      exact natDigits_last_ok m c hc
  have hdig : ∀ y ∈ natDigits m, y.isDigit = true := natDigits_digits m
  rw [parseRawLine_signed st _ op (natDigits m) hstrip
    (by
      intro y hy
      rcases List.mem_cons.mp hy with rfl | hy2
      · rcases hop with rfl | rfl <;> decide
      · exact digit_ne y '\\' (hdig y hy2) (by decide))
    hop]
  rw [stripL_natDigits]

theorem parse_rule_chunk (st : BlockParse) :
    parseRawLine st ('\n' :: (hlineSeg ++ ['\n'])) =
      { st with parsed_lines_data := st.parsed_lines_data ++ [PLine.hline] } :=
  parseRawLine_rule st _ (by decide)

theorem fold_plain_chunks (ms : List Nat) (rest : List (List Char)) (st : BlockParse) :
    List.foldl parseRawLine st ((ms.map fun m => '\n' :: (plainPart m ++ [' '])) ++ rest) =
      List.foldl parseRawLine
        { parsed_lines_data :=
            st.parsed_lines_data ++ ms.map fun m => PLine.number [] (natDigits m),
          max_number_part_len :=
            ms.foldl (fun a m => max a (natDigits m).length) st.max_number_part_len,
          has_operator_column := st.has_operator_column } rest := by
  induction ms generalizing st with
  | nil => simp
  | cons m ms ih =>
    simp only [List.map_cons, List.cons_append, List.foldl_cons]
    rw [parse_plain_chunk, ih]
    congr 1
    simp

theorem plainPart_no_bs (m : Nat) : ∀ y ∈ plainPart m, y ≠ '\\' := by
  intro y hy
  rcases List.mem_cons.mp hy with rfl | hy2
  · decide
  · rcases List.mem_append.mp hy2 with hy3 | hy4
    · exact digit_ne y '\\' (natDigits_digits m y hy3) (by decide)
    · rw [List.mem_singleton.mp hy4]; decide

theorem opPart_no_bs (op : Char) (m : Nat) (hop : op = '+' ∨ op = '-') :
    ∀ y ∈ opPart op m, y ≠ '\\' := by
  intro y hy
  rcases List.mem_cons.mp hy with rfl | hy1
  · decide
  · rcases List.mem_cons.mp hy1 with rfl | hy2
    · rcases hop with rfl | rfl <;> decide
    · rcases List.mem_append.mp hy2 with hy3 | hy4
      · exact digit_ne y '\\' (natDigits_digits m y hy3) (by decide)
      · rw [List.mem_singleton.mp hy4]; decide

theorem countNumberLines_append (l1 l2 : List PLine) :
    countNumberLines (l1 ++ l2) = countNumberLines l1 + countNumberLines l2 := by
  simp [countNumberLines, List.filter_append]

theorem countHlineLines_append (l1 l2 : List PLine) :
    countHlineLines (l1 ++ l2) = countHlineLines l1 + countHlineLines l2 := by
  simp [countHlineLines, List.filter_append]

theorem countSignedLines_append (l1 l2 : List PLine) :
    countSignedLines (l1 ++ l2) = countSignedLines l1 + countSignedLines l2 := by
  simp [countSignedLines, List.filter_append]

theorem counts_map_plain (ns : List Nat) :
    countNumberLines (ns.map fun m => PLine.number [] (natDigits m)) = ns.length ∧
      countHlineLines (ns.map fun m => PLine.number [] (natDigits m)) = 0 ∧
      countSignedLines (ns.map fun m => PLine.number [] (natDigits m)) = 0 := by
  refine ⟨?_, ?_, ?_⟩
  · unfold countNumberLines
    rw [List.filter_eq_self.mpr]
    · exact List.length_map ns _
    · intro a ha
      obtain ⟨m, _, rfl⟩ := List.mem_map.mp ha
      rfl
  · unfold countHlineLines
    rw [List.filter_eq_nil_iff.mpr]
    · rfl
    · intro a ha
      obtain ⟨m, _, rfl⟩ := List.mem_map.mp ha
      simp [isNumberLine]
  · unfold countSignedLines
    rw [List.filter_eq_nil_iff.mpr]
    · rfl
    · intro a ha
      obtain ⟨m, _, rfl⟩ := List.mem_map.mp ha
      simp [isSignedLine]

/-- The full parse of a successfully serialized problem: one unsigned number
line per non-final operand, one signed number line for the final operand, one
rule line, with the operator column present. -/
theorem parse_block_serialized (numbers : List Nat) (operators : List Char)
    (s : List Char) (hops : ∀ o ∈ operators, o = '+' ∨ o = '-')
    (hser : serialize_problem numbers operators = some s) :
    ∃ lastNum lastOp M,
      numbers.getLast? = some lastNum ∧
      parse_block (arrayPartOfBlock s) =
        { parsed_lines_data :=
            (numbers.dropLast.map fun m => PLine.number [] (natDigits m)) ++
              [PLine.number [lastOp] (natDigits lastNum), PLine.hline],
          max_number_part_len := M,
          has_operator_column := true } := by
  obtain ⟨lastNum, lastOp, hln, hlo, hs⟩ := serialize_eq numbers operators s hser
  have hop : lastOp = '+' ∨ lastOp = '-' := hops lastOp (mem_of_getLast?_eq hlo)
  have hPLc : ∀ y ∈ problemLatex numbers.dropLast lastOp lastNum, SerChar lastOp y :=
    problemLatex_chars _ _ _
  have hPLne : ∀ c : Char, c.isDigit = false →
      c ∉ ([' ', '\\', '\n', 'h', 'l', 'i', 'n', 'e', '+', '-'] : List Char) →
      ∀ y ∈ problemLatex numbers.dropLast lastOp lastNum, y ≠ c := fun c hc hlit y hy =>
    serChar_ne lastOp y c hop (hPLc y hy) hc hlit
  -- Step A: the trimmed array text of the block.
  have harr : arrayPartOfBlock s =
      bArrR ++ '\n' :: problemLatex numbers.dropLast lastOp lastNum ++ '\n' :: eArr := by
    unfold arrayPartOfBlock innerOf
    rw [hs]
    have hdrop : ('$' :: ' ' :: bArrR ++ '\n' ::
        problemLatex numbers.dropLast lastOp lastNum ++ '\n' :: eArr ++ [' ', '$']).drop 1 =
        ' ' :: bArrR ++ '\n' :: problemLatex numbers.dropLast lastOp lastNum ++
          '\n' :: eArr ++ [' ', '$'] := rfl
    rw [hdrop]
    have hconcat : ' ' :: bArrR ++ '\n' ::
        problemLatex numbers.dropLast lastOp lastNum ++ '\n' :: eArr ++ [' ', '$'] =
        (' ' :: bArrR ++ '\n' :: problemLatex numbers.dropLast lastOp lastNum ++
          '\n' :: eArr ++ [' ']) ++ ['$'] := by
      simp
    rw [hconcat, List.dropLast_concat]
    have hsand : ' ' :: bArrR ++ '\n' ::
        problemLatex numbers.dropLast lastOp lastNum ++ '\n' :: eArr ++ [' '] =
        [' '] ++ (bArrR ++ '\n' :: problemLatex numbers.dropLast lastOp lastNum ++
          '\n' :: eArr) ++ [' '] := by
      simp
    rw [hsand]
    refine stripL_sandwich _ _ _ (by decide) (by decide) (by simp [bArrR]) ?_ ?_
    · intro c hc
      rw [show (bArrR ++ '\n' :: problemLatex numbers.dropLast lastOp lastNum ++
        '\n' :: eArr).head? = some '\\' from rfl] at hc
      rw [← Option.some.inj hc]
      decide
    · intro c hc
      have hsh : bArrR ++ '\n' :: problemLatex numbers.dropLast lastOp lastNum ++
          '\n' :: eArr =
          (bArrR ++ '\n' :: problemLatex numbers.dropLast lastOp lastNum ++ ['\n']) ++
            eArr := by
        simp
      rw [hsh, List.getLast?_append_of_ne_nil _ (by decide),
        show eArr.getLast? = some '}' from by decide] at hc
      rw [← Option.some.inj hc]
      decide
  -- Step B: the three wrapper removals and the split into raw lines.
  have hnohit1 : NoHit bArrR []
      ('\n' :: (problemLatex numbers.dropLast lastOp lastNum ++ '\n' :: eArr)) := by
    apply noHit_nil_of_char _ _ 'b' (by decide)
    intro y hy
    rcases List.mem_cons.mp hy with rfl | hy1
    · decide
    · rcases List.mem_append.mp hy1 with hy2 | hy3
      · exact hPLne 'b' (by decide) (by decide) y hy2
      · rcases List.mem_cons.mp hy3 with rfl | hy4
        · decide
        · exact (show ∀ z ∈ eArr, z ≠ 'b' by decide) y hy4
  have hnohit2 : NoHit eArr eArr
      ('\n' :: (problemLatex numbers.dropLast lastOp lastNum ++ ['\n'])) := by
    apply noHit_of_char _ _ _ 'd' (by decide)
    · intro y hy
      rcases List.mem_cons.mp hy with rfl | hy1
      · decide
      · rcases List.mem_append.mp hy1 with hy2 | hy3
        · exact hPLne 'd' (by decide) (by decide) y hy2
        · rw [List.mem_singleton.mp hy3]; decide
    · intro cl hcl
      have hsh : '\n' :: (problemLatex numbers.dropLast lastOp lastNum ++ ['\n']) =
          ('\n' :: problemLatex numbers.dropLast lastOp lastNum) ++ ['\n'] := by simp
      rw [hsh, List.getLast?_concat] at hcl
      rw [← Option.some.inj hcl]
      decide
  have hnohit3 : NoHit ampLit []
      ('\n' :: (problemLatex numbers.dropLast lastOp lastNum ++ ['\n'])) := by
    apply noHit_nil_of_char _ _ '&' (by decide)
    intro y hy
    rcases List.mem_cons.mp hy with rfl | hy1
    · decide
    · rcases List.mem_append.mp hy1 with hy2 | hy3
      · exact hPLne '&' (by decide) (by decide) y hy2
      · rw [List.mem_singleton.mp hy3]; decide
  have hparts_bs : ∀ p ∈ numbers.dropLast.map plainPart ++ [opPart lastOp lastNum],
      ∀ y ∈ p, y ≠ '\\' := by
    intro p hp
    rcases List.mem_append.mp hp with hpa | hpb
    · obtain ⟨m, _, rfl⟩ := List.mem_map.mp hpa
      exact plainPart_no_bs m
    · rw [List.mem_singleton.mp hpb]
      exact opPart_no_bs lastOp lastNum hop
  have hbody : parse_block
      (bArrR ++ '\n' :: problemLatex numbers.dropLast lastOp lastNum ++ '\n' :: eArr) =
      { parsed_lines_data :=
          (numbers.dropLast.map fun m => PLine.number [] (natDigits m)) ++
            [PLine.number [lastOp] (natDigits lastNum), PLine.hline],
        max_number_part_len :=
          max (numbers.dropLast.foldl (fun a m => max a (natDigits m).length) 0)
            (natDigits lastNum).length,
        has_operator_column := true } := by
    unfold parse_block
    rw [show bArrR ++ '\n' :: problemLatex numbers.dropLast lastOp lastNum ++ '\n' :: eArr =
      bArrR ++ ('\n' :: (problemLatex numbers.dropLast lastOp lastNum ++ '\n' :: eArr))
      from by simp]
    rw [removeAll_head_match _ _ (by decide)]
    rw [removeAll_no _ _ hnohit1]
    rw [show '\n' :: (problemLatex numbers.dropLast lastOp lastNum ++ '\n' :: eArr) =
      ('\n' :: (problemLatex numbers.dropLast lastOp lastNum ++ ['\n'])) ++ eArr
      from by simp]
    rw [removeAll_append _ _ _ hnohit2]
    rw [show removeAll eArr eArr = [] from by decide, List.append_nil]
    rw [removeAll_no _ _ hnohit3]
    rw [show '\n' :: (problemLatex numbers.dropLast lastOp lastNum ++ ['\n']) =
      '\n' :: (List.intercalate sep4
        (numbers.dropLast.map plainPart ++ [opPart lastOp lastNum]) ++
          (sep4 ++ (hlineSeg ++ ['\n']))) from by simp [problemLatex]]
    rw [split_chunksText _ _ (by simp) hparts_bs]
    rw [show splitOnL dblBackslash ('\n' :: (hlineSeg ++ ['\n'])) =
      ['\n' :: (hlineSeg ++ ['\n'])] from by decide]
    rw [List.map_append, List.map_map]
    rw [show ((fun p => '\n' :: (p ++ [' '])) ∘ plainPart) =
      (fun m => '\n' :: (plainPart m ++ [' '])) from rfl]
    rw [show (numbers.dropLast.map fun m => '\n' :: (plainPart m ++ [' '])) ++
        List.map (fun p => '\n' :: (p ++ [' '])) [opPart lastOp lastNum] ++
          ['\n' :: (hlineSeg ++ ['\n'])] =
      (numbers.dropLast.map fun m => '\n' :: (plainPart m ++ [' '])) ++
        (['\n' :: (opPart lastOp lastNum ++ [' '])] ++ ['\n' :: (hlineSeg ++ ['\n'])])
      from by simp]
    rw [fold_plain_chunks]
    simp only [List.singleton_append, List.foldl_cons, List.foldl_nil]
    rw [parse_op_chunk _ _ _ hop, parse_rule_chunk]
    simp
  exact ⟨lastNum, lastOp, _, hln, by rw [harr, hbody]⟩

theorem length_of_getLast?_some {l : List Nat} {x : Nat} (h : l.getLast? = some x) :
    l.dropLast.length + 1 = l.length := by
  cases l with
  | nil => cases h
  | cons a as => simp

/-- C4: for every Problem that serializes successfully, parsing the block's
array text yields exactly one Number line per operand plus exactly one Rule
line, and no other lines. -/
theorem c4_roundtrip_line_counts (numbers : List Nat) (operators : List Char)
    (s : List Char) (hops : ∀ o ∈ operators, o = '+' ∨ o = '-')
    (hser : serialize_problem numbers operators = some s) :
    countNumberLines (parse_block (arrayPartOfBlock s)).parsed_lines_data =
        numbers.length ∧
      countHlineLines (parse_block (arrayPartOfBlock s)).parsed_lines_data = 1 ∧
      (parse_block (arrayPartOfBlock s)).parsed_lines_data.length =
        numbers.length + 1 := by
  obtain ⟨lastNum, lastOp, M, hln, hparse⟩ :=
    parse_block_serialized numbers operators s hops hser
  have hlen : numbers.dropLast.length + 1 = numbers.length :=
    length_of_getLast?_some hln
  obtain ⟨h1, h2, _⟩ := counts_map_plain numbers.dropLast
  rw [hparse]
  refine ⟨?_, ?_, ?_⟩
  · rw [countNumberLines_append, h1,
      show countNumberLines [PLine.number [lastOp] (natDigits lastNum), PLine.hline] = 1
        from rfl]
    omega
  · rw [countHlineLines_append, h2,
      show countHlineLines [PLine.number [lastOp] (natDigits lastNum), PLine.hline] = 1
        from rfl]
  · rw [List.length_append, List.length_map,
      show [PLine.number [lastOp] (natDigits lastNum), PLine.hline].length = 2 from rfl]
    omega

def sampleBlock : List Char :=
  "$ \\begin\x7barray\x7d\x7br\x7d\n 452  \\\\\n -37  \\\\\n \\hline \n\\end\x7barray\x7d $".data

/-- C4 witness: the problem 452 - 37 serializes and parses back to two Number
lines and one Rule line. -/
theorem c4_roundtrip_witness :
    countNumberLines (parse_block (arrayPartOfBlock sampleBlock)).parsed_lines_data = 2 ∧
      countHlineLines (parse_block (arrayPartOfBlock sampleBlock)).parsed_lines_data = 1 ∧
      (parse_block (arrayPartOfBlock sampleBlock)).parsed_lines_data.length = 2 + 1 :=
  c4_roundtrip_line_counts [452, 37] ['-'] sampleBlock (by decide) (by decide)

/-- C10: every successfully serialized problem carries exactly one signed
line (the final operand line), so the parser always finds the operator column
and sets its width to 2. -/
theorem c10_operator_column (numbers : List Nat) (operators : List Char)
    (s : List Char) (hops : ∀ o ∈ operators, o = '+' ∨ o = '-')
    (hser : serialize_problem numbers operators = some s) :
    countSignedLines (parse_block (arrayPartOfBlock s)).parsed_lines_data = 1 ∧
      (parse_block (arrayPartOfBlock s)).has_operator_column = true ∧
      operator_col_width (parse_block (arrayPartOfBlock s)) = 2 := by
  obtain ⟨lastNum, lastOp, M, hln, hparse⟩ :=
    parse_block_serialized numbers operators s hops hser
  obtain ⟨-, -, h3⟩ := counts_map_plain numbers.dropLast
  rw [operator_col_width, hparse]
  refine ⟨?_, rfl, ?_⟩
  · rw [countSignedLines_append, h3,
      show countSignedLines [PLine.number [lastOp] (natDigits lastNum), PLine.hline] = 1
        from rfl]
  · rfl

/-- C10 witness: the sample block has exactly one signed line and operator
column width 2. -/
theorem c10_operator_column_witness :
    countSignedLines (parse_block (arrayPartOfBlock sampleBlock)).parsed_lines_data = 1 ∧
      (parse_block (arrayPartOfBlock sampleBlock)).has_operator_column = true ∧
      operator_col_width (parse_block (arrayPartOfBlock sampleBlock)) = 2 :=
  c10_operator_column [452, 37] ['-'] sampleBlock (by decide) (by decide)

/- ----------------------------------------------------------------
   latex_to_image.py, lines 27-52: block extraction from a document.
   The nested regular expressions search for literal delimiters:

   * re.search(r'\begin{document}(.*?)\end{document}', s, DOTALL) matches
     iff an '\end{document}' occurs after the first '\begin{document}'
     (an end after any begin is also after the first one), and then the
     lazy group is the text between the first begin and the first end
     after it.  extractDocument implements exactly that; on no match the
     source keeps the whole text.
   * re.search(r'\begin{tabular}{.*?}\s*(.*?)\s*\end{tabular}', s, DOTALL):
     the lazy '.*?}' stops at the first '}' after the literal, and the
     greedy/lazy '\s*(.*?)\s*' sandwich makes group(1) the text between
     that '}' and the first following '\end{tabular}', stripped of
     surrounding whitespace.  Again a match from a later begin or a later
     '}' exists only if one from the first does.
   * re.findall(r'\$(.*?)\$', s, DOTALL) pairs the pieces of s.split('$'):
     pieces at odd positions are spans, and a span needs a closing '$',
     i.e. a following piece (pairSpans).
   * re.search(r'^\s*(\begin{array}.*?\end{array})\s*$', raw, DOTALL)
     succeeds iff raw.strip() starts with '\begin{array}' and ends with
     '\end{array}' (the two literals cannot overlap: any overlap would
     force a backslash inside the other literal's tail), and then
     group(1).strip() is raw.strip().
   ---------------------------------------------------------------- -/

def beginDocLit : List Char :=
  ['\\', 'b', 'e', 'g', 'i', 'n', '{', 'd', 'o', 'c', 'u', 'm', 'e', 'n', 't', '}']

def endDocLit : List Char :=
  ['\\', 'e', 'n', 'd', '{', 'd', 'o', 'c', 'u', 'm', 'e', 'n', 't', '}']

def beginTabLit : List Char :=
  ['\\', 'b', 'e', 'g', 'i', 'n', '{', 't', 'a', 'b', 'u', 'l', 'a', 'r', '}', '{']

def endTabLit : List Char :=
  ['\\', 'e', 'n', 'd', '{', 't', 'a', 'b', 'u', 'l', 'a', 'r', '}']

def rbraceLit : List Char := ['}']

def dollarLit : List Char := ['$']

def beginArr : List Char :=
  ['\\', 'b', 'e', 'g', 'i', 'n', '{', 'a', 'r', 'r', 'a', 'y', '}']

/-- latex_to_image.py lines 29-33. -/
def extractDocument (s : List Char) : List Char :=
  match splitOnceAfter beginDocLit s with
  | some (_, afterBegin) =>
    match splitOnceAfter endDocLit afterBegin with
    | some (inner, _) => inner
    | none => s
  | none => s

/-- latex_to_image.py lines 37-40. -/
def extractTabular (s : List Char) : List Char :=
  match splitOnceAfter beginTabLit s with
  | some (_, afterBegin) =>
    match splitOnceAfter rbraceLit afterBegin with
    | some (_, afterBrace) =>
      match splitOnceAfter endTabLit afterBrace with
      | some (inner, _) => stripL inner
      | none => s
    | none => s
  | none => s

/-- Pair up the pieces of a split on `$` (model of `re.findall(r'\$(.*?)\$')`):
a piece at an odd position is a span only when a further piece supplies the
closing `$`. -/
def pairSpans : List (List Char) → List (List Char)
  | _ :: b :: rest => if rest.isEmpty then [] else b :: pairSpans rest
  | _ => []

def trailsWith (pat s : List Char) : Bool := leadsWith pat.reverse s.reverse

/-- The filter at latex_to_image.py lines 50-52: the span, trimmed, must be
one whole array environment. -/
def isArrayBlockSpan (raw : List Char) : Bool :=
  leadsWith beginArr (stripL raw) && trailsWith eArr (stripL raw)

/-- latex_to_image.py lines 44-52. -/
def find_math_blocks (processed : List Char) : List (List Char) :=
  (pairSpans (splitOnL dollarLit processed)).filterMap fun raw =>
    if isArrayBlockSpan raw then some (stripL raw) else none

/-- latex_to_image.py lines 27-52 composed: the extraction pipeline of
`generate_image_from_latex_file` up to the list `math_blocks`. -/
def extract_math_blocks (latex_content : List Char) : List (List Char) :=
  find_math_blocks (extractTabular (extractDocument latex_content))

/- ----------------------------------------------------------------
   genlatex.py, lines 67-98: document assembly.  The header is the
   %%-formatted template of lines 70-79 ('%%' renders as '%', '%s' as the
   decimal of num_problems_per_row); the source loop appends ' \\' to row r
   exactly when r < num_rows - 1, i.e. to every row except the last, and a
   newline to every row.  bodyRows takes the rows of generated cell strings
   (each cell produced by generate_problem_latex).
   ---------------------------------------------------------------- -/

def headerA : List Char :=
  "\\documentclass\x7barticle\x7d\n\\usepackage\x7bamsmath\x7d % Required for the align environment, etc.\n\\usepackage\x7bgeometry\x7d % For page margins\n\\geometry\x7ba4paper, margin=1in\x7d % Set margins\n\n".data

def headerB : List Char := "\n\\centering\n\n".data

def headerL (num_problems_per_row : Nat) : List Char :=
  headerA ++ beginDocLit ++ headerB ++ beginTabLit ++
    ('*' :: '{' :: natDigits num_problems_per_row) ++
    ('}' :: '{' :: 'c' :: '}' :: '}' :: ['\n'])

def footerL : List Char := endTabLit ++ ('\n' :: '\n' :: endDocLit)

def ampSep : List Char := [' ', '&', ' ']

def rowBreak : List Char := [' ', '\\', '\\']

def rowTextL (cells : List (List Char)) (isLast : Bool) : List Char :=
  List.intercalate ampSep cells ++ (if isLast then [] else rowBreak) ++ ['\n']

def bodyRows : List (List (List Char)) → List Char
  | [] => []
  | [row] => rowTextL row true
  | row :: rest => rowTextL row false ++ bodyRows rest

def generate_latex_document (rows : List (List (List Char)))
    (num_problems_per_row : Nat) : List Char :=
  headerL num_problems_per_row ++ bodyRows rows ++ footerL

/-- genlatex.py, main, lines 129-132: ceiling division of the requested total
by the fixed 5 problems per row, then at least one row. -/
def num_rows_from_total (total_problems : Nat) : Nat :=
  if (total_problems + 5 - 1) / 5 = 0 then 1 else (total_problems + 5 - 1) / 5

/-- C6 (counterexample): assembling a document with zero rows does not emit a
single empty row - an empty row would contribute the row text
`rowTextL [] true = "\n"` - it emits nothing at all between the table header
and footer. -/
theorem c6_zero_rows_counterexample :
    generate_latex_document [] 5 = headerL 5 ++ footerL ∧
      generate_latex_document [] 5 ≠ headerL 5 ++ rowTextL [] true ++ footerL := by
  constructor
  · simp [generate_latex_document, bodyRows]
  · decide

/-- C6 (amended): assembling a document with zero rows produces an empty body
- no row at all - between the table header and footer; the document and table
wrappers remain well-formed, with the header immediately followed by the
footer. -/
theorem c6_zero_rows_empty_body (num_problems_per_row : Nat) :
    generate_latex_document [] num_problems_per_row =
      headerL num_problems_per_row ++ footerL := by
  simp [generate_latex_document, bodyRows]

/- ----------------------------------------------------------------
   The master extraction lemma: extracting from an assembled document
   returns exactly those `$`-spans whose interiors pass the array filter.
   ---------------------------------------------------------------- -/

/-- Shape of one grid cell: a `$ ... $` span whose interior contains no `$`
(so the spans pair up), no `u` and no `o` (the structural search literals
`\end{document}` and `\end{tabular}` each contain one of these, so they
cannot fire inside a cell). -/
def CellOk (b : List Char) : Prop :=
  (∃ inner, b = '$' :: inner ++ ['$']) ∧
    ∀ x ∈ innerOf b, x ≠ '$' ∧ x ≠ 'u' ∧ x ≠ 'o'

theorem innerOf_wrap (inner : List Char) : innerOf ('$' :: inner ++ ['$']) = inner := by
  unfold innerOf
  rw [show ('$' :: inner ++ ['$']).drop 1 = inner ++ ['$'] from by simp]
  exact List.dropLast_concat

theorem cellOk_shape {b : List Char} (h : CellOk b) :
    b = '$' :: innerOf b ++ ['$'] := by
  obtain ⟨⟨inner, hb⟩, _⟩ := h
  rw [hb, innerOf_wrap]

theorem cellOk_chars {b : List Char} (h : CellOk b) :
    ∀ x ∈ b, (x = '$' ∨ (x ≠ '$' ∧ x ≠ 'u' ∧ x ≠ 'o')) := by
  intro x hx
  rw [cellOk_shape h] at hx
  rcases List.mem_cons.mp hx with rfl | hx1
  · exact Or.inl rfl
  · rcases List.mem_append.mp hx1 with hx2 | hx3
    · exact Or.inr (h.2 x hx2)
    · rw [List.mem_singleton.mp hx3]
      exact Or.inl rfl

theorem cellOk_no_uo {b : List Char} (h : CellOk b) :
    ∀ x ∈ b, x ≠ 'u' ∧ x ≠ 'o' := by
  intro x hx
  rcases cellOk_chars h x hx with rfl | ⟨_, h2, h3⟩
  · exact ⟨by decide, by decide⟩
  · exact ⟨h2, h3⟩

theorem rowTextL_chars (row : List (List Char)) (isLast : Bool)
    (hcells : ∀ b ∈ row, CellOk b) :
    ∀ x ∈ rowTextL row isLast, x ≠ 'u' ∧ x ≠ 'o' := by
  intro x hx
  unfold rowTextL at hx
  rcases List.mem_append.mp hx with hx1 | hx2
  · rcases List.mem_append.mp hx1 with hx2 | hx3
    · refine intercalate_chars (fun y => y ≠ 'u' ∧ y ≠ 'o') ampSep row ?_ ?_ x hx2
      · intro z hz
        fin_cases hz <;> exact ⟨by decide, by decide⟩
      · intro p hp z hz
        exact cellOk_no_uo (hcells p hp) z hz
    · have hxrb : x ∈ rowBreak := by
        cases isLast with
        | true => simp at hx3
        | false =>
          rw [if_neg (by decide)] at hx3
          exact hx3
      fin_cases hxrb <;> exact ⟨by decide, by decide⟩
  · rw [List.mem_singleton.mp hx2]
    exact ⟨by decide, by decide⟩

theorem bodyRows_chars (rows : List (List (List Char)))
    (hcells : ∀ row ∈ rows, ∀ b ∈ row, CellOk b) :
    ∀ x ∈ bodyRows rows, x ≠ 'u' ∧ x ≠ 'o' := by
  induction rows with
  | nil => simp [bodyRows]
  | cons row rest ih =>
    cases rest with
    | nil =>
      intro x hx
      exact rowTextL_chars row true (hcells row (by simp)) x hx
    | cons r2 rest2 =>
      intro x hx
      rw [show bodyRows (row :: r2 :: rest2) =
        rowTextL row false ++ bodyRows (r2 :: rest2) from rfl] at hx
      rcases List.mem_append.mp hx with hx1 | hx2
      · exact rowTextL_chars row false (hcells row (by simp)) x hx1
      · exact ih (fun r hr => hcells r (List.mem_cons_of_mem row hr)) x hx2

theorem rowTextL_ne_nil (row : List (List Char)) (isLast : Bool) :
    rowTextL row isLast ≠ [] := by
  unfold rowTextL
  simp

theorem bodyRows_getLast? (rows : List (List (List Char))) (hne : rows ≠ []) :
    (bodyRows rows).getLast? = some '\n' := by
  induction rows with
  | nil => exact absurd rfl hne
  | cons row rest ih =>
    cases rest with
    | nil =>
      rw [show bodyRows [row] = rowTextL row true from rfl]
      unfold rowTextL
      rw [show List.intercalate ampSep row ++ (if true = true then [] else rowBreak) ++ ['\n'] =
        (List.intercalate ampSep row ++ (if true = true then [] else rowBreak)) ++ ['\n']
        from by simp]
      exact List.getLast?_concat _
    | cons r2 rest2 =>
      rw [show bodyRows (row :: r2 :: rest2) =
        rowTextL row false ++ bodyRows (r2 :: rest2) from rfl]
      have hne2 : bodyRows (r2 :: rest2) ≠ [] := by
        intro hcon
        have := ih (by simp)
        rw [hcon] at this
        cases this
      rw [List.getLast?_append_of_ne_nil _ hne2]
      exact ih (by simp)

/-- Interleaving of span interiors and the `$`-free gap after each span. -/
def encodeSpans : List (List Char × List Char) → List Char
  | [] => []
  | (inner, gap) :: rest => '$' :: inner ++ '$' :: gap ++ encodeSpans rest

theorem encodeSpans_append (a b : List (List Char × List Char)) :
    encodeSpans (a ++ b) = encodeSpans a ++ encodeSpans b := by
  induction a with
  | nil => simp [encodeSpans]
  | cons p rest ih =>
    obtain ⟨inner, gap⟩ := p
    simp [encodeSpans, ih]

theorem noHit_dollar (a : List Char) (b : List Char) (h : '$' ∉ a) :
    NoHit dollarLit b a := by
  refine noHit_of_char _ _ _ '$' (by decide) (fun y hy => fun hcon => h (hcon ▸ hy)) ?_
  intro cl hcl hmem
  rw [List.mem_singleton.mp hmem] at hcl
  exact h (mem_of_getLast?_eq hcl)

theorem splitOn_dollar_encode (g0 : List Char)
    (items : List (List Char × List Char)) (hg0 : '$' ∉ g0)
    (hit : ∀ p ∈ items, '$' ∉ p.1 ∧ '$' ∉ p.2) :
    splitOnL dollarLit (g0 ++ encodeSpans items) =
      g0 :: items.flatMap fun p => [p.1, p.2] := by
  induction items generalizing g0 with
  | nil =>
    rw [show encodeSpans [] = [] from rfl, List.append_nil]
    rw [splitOnL_no _ _ (noHit_dollar g0 [] hg0)]
    simp
  | cons p rest ih =>
    obtain ⟨inner, gap⟩ := p
    have hinner : '$' ∉ inner := (hit (inner, gap) (by simp)).1
    have hgap : '$' ∉ gap := (hit (inner, gap) (by simp)).2
    rw [show g0 ++ encodeSpans ((inner, gap) :: rest) =
      g0 ++ dollarLit ++ (inner ++ dollarLit ++ (gap ++ encodeSpans rest))
      from by simp [encodeSpans, dollarLit]]
    rw [splitOnL_append _ _ _ (by decide) (noHit_dollar g0 _ hg0)]
    rw [splitOnL_append _ _ _ (by decide) (noHit_dollar inner _ hinner)]
    rw [ih gap hgap (fun q hq => hit q (List.mem_cons_of_mem _ hq))]
    simp

theorem pairSpans_encode (g0 : List Char) (items : List (List Char × List Char)) :
    pairSpans (g0 :: items.flatMap fun p => [p.1, p.2]) = items.map Prod.fst := by
  induction items generalizing g0 with
  | nil => rfl
  | cons p rest ih =>
    obtain ⟨inner, gap⟩ := p
    rw [show (((inner, gap) :: rest).flatMap fun p => [p.1, p.2]) =
      inner :: gap :: rest.flatMap (fun p => [p.1, p.2]) from by simp]
    rw [show pairSpans (g0 :: inner :: gap :: rest.flatMap fun p => [p.1, p.2]) =
      if (gap :: rest.flatMap fun p => [p.1, p.2]).isEmpty then []
      else inner :: pairSpans (gap :: rest.flatMap fun p => [p.1, p.2]) from rfl]
    rw [if_neg (by simp [List.isEmpty])]
    rw [ih gap]
    rfl

theorem intercalate_getLast_dollar (row : List (List Char)) (hne : row ≠ [])
    (hcells : ∀ b ∈ row, CellOk b) :
    (List.intercalate ampSep row).getLast? = some '$' := by
  induction row with
  | nil => exact absurd rfl hne
  | cons b rest ih =>
    cases rest with
    | nil =>
      rw [intercalate_single]
      rw [cellOk_shape (hcells b (by simp))]
      rw [show '$' :: innerOf b ++ ['$'] = ('$' :: innerOf b) ++ ['$'] from rfl]
      exact List.getLast?_concat _
    | cons b2 rest2 =>
      rw [intercalate_cons2]
      have hih := ih (by simp) (fun c hc => hcells c (List.mem_cons_of_mem b hc))
      have hne2 : List.intercalate ampSep (b2 :: rest2) ≠ [] := by
        intro hcon
        rw [hcon] at hih
        cases hih
      have hne3 : ampSep ++ List.intercalate ampSep (b2 :: rest2) ≠ [] := by
        simp [ampSep]
      rw [List.append_assoc, List.getLast?_append_of_ne_nil _ hne3,
        List.getLast?_append_of_ne_nil _ hne2]
      exact hih

theorem row_encode (row : List (List Char)) (tailGap : List Char) (hne : row ≠ [])
    (hcells : ∀ b ∈ row, CellOk b) (htail : '$' ∉ tailGap) :
    ∃ items : List (List Char × List Char),
      List.intercalate ampSep row ++ tailGap = encodeSpans items ∧
      items.map Prod.fst = row.map innerOf ∧
      ∀ p ∈ items, '$' ∉ p.1 ∧ '$' ∉ p.2 := by
  induction row with
  | nil => exact absurd rfl hne
  | cons b rest ih =>
    cases rest with
    | nil =>
      refine ⟨[(innerOf b, tailGap)], ?_, by simp, ?_⟩
      · rw [intercalate_single]
        rw [show encodeSpans [(innerOf b, tailGap)] =
          '$' :: innerOf b ++ '$' :: tailGap ++ [] from rfl]
        rw [List.append_nil]
        conv_lhs => rw [cellOk_shape (hcells b (by simp))]
        simp
      · intro p hp
        rw [List.mem_singleton.mp hp]
        refine ⟨?_, htail⟩
        intro hcon
        exact ((hcells b (by simp)).2 '$' hcon).1 rfl
    | cons b2 rest2 =>
      obtain ⟨items, h1, h2, h3⟩ :=
        ih (by simp) (fun c hc => hcells c (List.mem_cons_of_mem b hc))
      refine ⟨(innerOf b, ampSep) :: items, ?_, ?_, ?_⟩
      · rw [intercalate_cons2]
        rw [show encodeSpans ((innerOf b, ampSep) :: items) =
          '$' :: innerOf b ++ '$' :: ampSep ++ encodeSpans items from rfl]
        rw [← h1]
        conv_lhs => rw [cellOk_shape (hcells b (by simp))]
        simp
      · simp [h2]
      · intro p hp
        rcases List.mem_cons.mp hp with rfl | hp2
        · exact ⟨fun hcon => ((hcells b (by simp)).2 '$' hcon).1 rfl,
            (by decide : '$' ∉ ampSep)⟩
        · exact h3 p hp2

theorem body_encode (rows : List (List (List Char))) (hne : rows ≠ [])
    (hrows : ∀ row ∈ rows, row ≠ [])
    (hcells : ∀ row ∈ rows, ∀ b ∈ row, CellOk b) :
    ∃ items : List (List Char × List Char),
      bodyRows rows = encodeSpans items ++ ['\n'] ∧
      items.map Prod.fst = rows.flatten.map innerOf ∧
      (∀ p ∈ items, '$' ∉ p.1 ∧ '$' ∉ p.2) ∧
      (encodeSpans items).getLast? = some '$' := by
  induction rows with
  | nil => exact absurd rfl hne
  | cons row rest ih =>
    cases rest with
    | nil =>
      obtain ⟨items, h1, h2, h3⟩ := row_encode row [] (hrows row (by simp))
        (hcells row (by simp)) (by simp)
      rw [List.append_nil] at h1
      refine ⟨items, ?_, by simpa using h2, h3, ?_⟩
      · rw [show bodyRows [row] = rowTextL row true from rfl]
        unfold rowTextL
        simp [h1]
      · rw [← h1]
        exact intercalate_getLast_dollar row (hrows row (by simp)) (hcells row (by simp))
    | cons r2 rest2 =>
      obtain ⟨items1, h11, h12, h13⟩ := row_encode row (rowBreak ++ ['\n'])
        (hrows row (by simp)) (hcells row (by simp)) (by decide)
      obtain ⟨items2, h21, h22, h23, h24⟩ := ih (by simp)
        (fun r hr => hrows r (List.mem_cons_of_mem row hr))
        (fun r hr => hcells r (List.mem_cons_of_mem row hr))
      have hne24 : encodeSpans items2 ≠ [] := by
        intro hcon
        rw [hcon] at h24
        cases h24
      refine ⟨items1 ++ items2, ?_, ?_, ?_, ?_⟩
      · rw [show bodyRows (row :: r2 :: rest2) =
          rowTextL row false ++ bodyRows (r2 :: rest2) from rfl]
        unfold rowTextL
        rw [encodeSpans_append, h21, ← h11]
        simp
      · simp [h12, h22]
      · intro p hp
        rcases List.mem_append.mp hp with h | h
        · exact h13 p h
        · exact h23 p h
      · rw [encodeSpans_append, List.getLast?_append_of_ne_nil _ hne24]
        exact h24

set_option maxHeartbeats 1600000 in
/-- Extraction from an assembled document returns, in order, the trimmed
interiors of exactly those cells whose interior passes the array filter. -/
theorem extract_assembled (rows : List (List (List Char))) (pr : Nat)
    (hne : rows ≠ []) (hrows : ∀ row ∈ rows, row ≠ [])
    (hcells : ∀ row ∈ rows, ∀ b ∈ row, CellOk b) :
    extract_math_blocks (generate_latex_document rows pr) =
      rows.flatten.filterMap fun b =>
        if isArrayBlockSpan (innerOf b) then some (stripL (innerOf b)) else none := by
  have hbody_uo := bodyRows_chars rows hcells
  have hbody_last := bodyRows_getLast? rows hne
  have hbody_ne : bodyRows rows ≠ [] := by
    intro hcon
    rw [hcon] at hbody_last
    cases hbody_last
  obtain ⟨items, hb1, hb2, hb3, hb4⟩ := body_encode rows hne hrows hcells
  have henc_ne : encodeSpans items ≠ [] := by
    intro hcon
    rw [hcon] at hb4
    cases hb4
  have hpre4_o : ∀ y ∈ headerB ++ beginTabLit ++ ('*' :: '{' :: natDigits pr) ++
      ('}' :: '{' :: 'c' :: '}' :: '}' :: ['\n']) ++ bodyRows rows ++ endTabLit ++
      ['\n', '\n'], y ≠ 'o' := by
    intro y hy
    simp only [List.mem_append] at hy
    rcases hy with ((((((hy | hy) | hy) | hy) | hy) | hy) | hy)
    · exact (show ∀ z ∈ headerB, z ≠ 'o' by decide) y hy
    · exact (show ∀ z ∈ beginTabLit, z ≠ 'o' by decide) y hy
    · rcases List.mem_cons.mp hy with rfl | hy1
      · decide
      · rcases List.mem_cons.mp hy1 with rfl | hy2
        · decide
        · exact digit_ne y 'o' (natDigits_digits pr y hy2) (by decide)
    · exact (show ∀ z ∈ ('}' :: '{' :: 'c' :: '}' :: '}' :: ['\n']), z ≠ 'o' by decide) y hy
    · exact (hbody_uo y hy).2
    · exact (show ∀ z ∈ endTabLit, z ≠ 'o' by decide) y hy
    · exact (show ∀ z ∈ (['\n', '\n'] : List Char), z ≠ 'o' by decide) y hy
  have hpre4_last : (headerB ++ beginTabLit ++ ('*' :: '{' :: natDigits pr) ++
      ('}' :: '{' :: 'c' :: '}' :: '}' :: ['\n']) ++ bodyRows rows ++ endTabLit ++
      ['\n', '\n']).getLast? = some '\n' := by
    rw [show headerB ++ beginTabLit ++ ('*' :: '{' :: natDigits pr) ++
      ('}' :: '{' :: 'c' :: '}' :: '}' :: ['\n']) ++ bodyRows rows ++ endTabLit ++
      ['\n', '\n'] =
      (headerB ++ beginTabLit ++ ('*' :: '{' :: natDigits pr) ++
        ('}' :: '{' :: 'c' :: '}' :: '}' :: ['\n']) ++ bodyRows rows ++ endTabLit ++
        ['\n']) ++ ['\n'] from by simp]
    exact List.getLast?_concat _
  have hsp1 : splitOnceAfter beginDocLit (generate_latex_document rows pr) =
      some (headerA, headerB ++ beginTabLit ++ ('*' :: '{' :: natDigits pr) ++
        ('}' :: '{' :: 'c' :: '}' :: '}' :: ['\n']) ++ bodyRows rows ++ endTabLit ++
        ('\n' :: '\n' :: endDocLit)) := by
    rw [show generate_latex_document rows pr =
      headerA ++ beginDocLit ++ (headerB ++ beginTabLit ++ ('*' :: '{' :: natDigits pr) ++
        ('}' :: '{' :: 'c' :: '}' :: '}' :: ['\n']) ++ bodyRows rows ++ endTabLit ++
        ('\n' :: '\n' :: endDocLit)) from by
      simp [generate_latex_document, headerL, footerL]]
    exact splitOnceAfter_spec beginDocLit headerA _ (by decide)
      (noHit_of_char _ _ _ 'b' (by decide)
        (show ∀ z ∈ headerA, z ≠ 'b' by decide)
        (fun cl hcl => by
          rw [show headerA.getLast? = some '\n' from by decide] at hcl
          rw [← Option.some.inj hcl]
          decide))
  have hsp2 : splitOnceAfter endDocLit
      (headerB ++ beginTabLit ++ ('*' :: '{' :: natDigits pr) ++
        ('}' :: '{' :: 'c' :: '}' :: '}' :: ['\n']) ++ bodyRows rows ++ endTabLit ++
        ('\n' :: '\n' :: endDocLit)) =
      some (headerB ++ beginTabLit ++ ('*' :: '{' :: natDigits pr) ++
        ('}' :: '{' :: 'c' :: '}' :: '}' :: ['\n']) ++ bodyRows rows ++ endTabLit ++
        ['\n', '\n'], []) := by
    rw [show headerB ++ beginTabLit ++ ('*' :: '{' :: natDigits pr) ++
      ('}' :: '{' :: 'c' :: '}' :: '}' :: ['\n']) ++ bodyRows rows ++ endTabLit ++
      ('\n' :: '\n' :: endDocLit) =
      (headerB ++ beginTabLit ++ ('*' :: '{' :: natDigits pr) ++
        ('}' :: '{' :: 'c' :: '}' :: '}' :: ['\n']) ++ bodyRows rows ++ endTabLit ++
        ['\n', '\n']) ++ endDocLit ++ [] from by simp]
    exact splitOnceAfter_spec endDocLit _ _ (by decide)
      (noHit_of_char _ _ _ 'o' (by decide) hpre4_o
        (fun cl hcl => by
          rw [hpre4_last] at hcl
          rw [← Option.some.inj hcl]
          decide))
  have hext1 : extractDocument (generate_latex_document rows pr) =
      headerB ++ beginTabLit ++ ('*' :: '{' :: natDigits pr) ++
        ('}' :: '{' :: 'c' :: '}' :: '}' :: ['\n']) ++ bodyRows rows ++ endTabLit ++
        ['\n', '\n'] := by
    unfold extractDocument
    rw [hsp1]
    dsimp only
    rw [hsp2]
  have hsp3 : splitOnceAfter beginTabLit
      (headerB ++ beginTabLit ++ ('*' :: '{' :: natDigits pr) ++
        ('}' :: '{' :: 'c' :: '}' :: '}' :: ['\n']) ++ bodyRows rows ++ endTabLit ++
        ['\n', '\n']) =
      some (headerB, ('*' :: '{' :: natDigits pr) ++
        ('}' :: '{' :: 'c' :: '}' :: '}' :: ['\n']) ++ bodyRows rows ++ endTabLit ++
        ['\n', '\n']) := by
    exact splitOnceAfter_spec beginTabLit headerB _ (by decide)
      (noHit_of_char _ _ _ 'b' (by decide)
        (show ∀ z ∈ headerB, z ≠ 'b' by decide)
        (fun cl hcl => by
          rw [show headerB.getLast? = some '\n' from by decide] at hcl
          rw [← Option.some.inj hcl]
          decide))
  have hdig_ne : natDigits pr ≠ [] := natDigits_ne_nil pr
  have hsp4 : splitOnceAfter rbraceLit
      (('*' :: '{' :: natDigits pr) ++
        ('}' :: '{' :: 'c' :: '}' :: '}' :: ['\n']) ++ bodyRows rows ++ endTabLit ++
        ['\n', '\n']) =
      some ('*' :: '{' :: natDigits pr,
        ('{' :: 'c' :: '}' :: '}' :: ['\n']) ++ bodyRows rows ++ endTabLit ++
        ['\n', '\n']) := by
    rw [show ('*' :: '{' :: natDigits pr) ++
      ('}' :: '{' :: 'c' :: '}' :: '}' :: ['\n']) ++ bodyRows rows ++ endTabLit ++
      ['\n', '\n'] =
      ('*' :: '{' :: natDigits pr) ++ rbraceLit ++
        (('{' :: 'c' :: '}' :: '}' :: ['\n']) ++ bodyRows rows ++ endTabLit ++
          ['\n', '\n']) from by simp [rbraceLit]]
    exact splitOnceAfter_spec rbraceLit _ _ (by decide)
      (noHit_of_char _ _ _ '}' (by decide)
        (by
          intro y hy
          rcases List.mem_cons.mp hy with rfl | hy1
          · decide
          · rcases List.mem_cons.mp hy1 with rfl | hy2
            · decide
            · exact digit_ne y '}' (natDigits_digits pr y hy2) (by decide))
        (fun cl hcl => by
          rw [show ('*' :: '{' :: natDigits pr).getLast? = (natDigits pr).getLast? from
            List.getLast?_append_of_ne_nil ['*', '{'] hdig_ne] at hcl
          intro hmem
          rw [List.mem_singleton.mp hmem] at hcl
          exact digit_ne '}' '}' (natDigits_digits pr '}' (mem_of_getLast?_eq hcl))
            (by decide) rfl))
  have hsp5 : splitOnceAfter endTabLit
      (('{' :: 'c' :: '}' :: '}' :: ['\n']) ++ bodyRows rows ++ endTabLit ++
        ['\n', '\n']) =
      some (('{' :: 'c' :: '}' :: '}' :: ['\n']) ++ bodyRows rows, ['\n', '\n']) := by
    exact splitOnceAfter_spec endTabLit _ _ (by decide)
      (noHit_of_char _ _ _ 'u' (by decide)
        (by
          intro y hy
          rcases List.mem_append.mp hy with hy1 | hy2
          · exact (show ∀ z ∈ ('{' :: 'c' :: '}' :: '}' :: ['\n']), z ≠ 'u' by decide) y hy1
          · exact (hbody_uo y hy2).1)
        (fun cl hcl => by
          rw [List.getLast?_append_of_ne_nil _ hbody_ne, hbody_last] at hcl
          rw [← Option.some.inj hcl]
          decide))
  have hext2 : extractTabular
      (headerB ++ beginTabLit ++ ('*' :: '{' :: natDigits pr) ++
        ('}' :: '{' :: 'c' :: '}' :: '}' :: ['\n']) ++ bodyRows rows ++ endTabLit ++
        ['\n', '\n']) =
      stripL (('{' :: 'c' :: '}' :: '}' :: ['\n']) ++ bodyRows rows) := by
    unfold extractTabular
    rw [hsp3]
    dsimp only
    rw [hsp4]
    dsimp only
    rw [hsp5]
  have hstrip : stripL (('{' :: 'c' :: '}' :: '}' :: ['\n']) ++ bodyRows rows) =
      ('{' :: 'c' :: '}' :: '}' :: ['\n']) ++ encodeSpans items := by
    rw [hb1]
    rw [show ('{' :: 'c' :: '}' :: '}' :: ['\n']) ++ (encodeSpans items ++ ['\n']) =
      ([] ++ (('{' :: 'c' :: '}' :: '}' :: ['\n']) ++ encodeSpans items)) ++ ['\n']
      from by simp]
    refine stripL_sandwich [] (('{' :: 'c' :: '}' :: '}' :: ['\n']) ++ encodeSpans items)
      ['\n'] (by simp) (by decide) (by simp) ?_ ?_
    · intro c hc
      rw [show ((('{' :: 'c' :: '}' :: '}' :: ['\n']) ++ encodeSpans items)).head? =
        some '{' from rfl] at hc
      rw [← Option.some.inj hc]
      decide
    · intro c hc
      rw [List.getLast?_append_of_ne_nil _ henc_ne, hb4] at hc
      rw [← Option.some.inj hc]
      decide
  show find_math_blocks (extractTabular (extractDocument (generate_latex_document rows pr))) = _
  rw [hext1, hext2, hstrip]
  unfold find_math_blocks
  rw [splitOn_dollar_encode _ items (by decide) hb3]
  rw [pairSpans_encode]
  rw [hb2]
  rw [List.filterMap_map]
  rfl

/- ----------------------------------------------------------------
   C5 / C7 / C8: extraction over documents assembled from serialized
   problem cells.
   ---------------------------------------------------------------- -/

/-- A grid cell as genlatex.py produces it: the successful serialization of
some operand list with operators drawn from the generator's alphabet. -/
def IsSerializedCell (b : List Char) : Prop :=
  ∃ numbers operators, (∀ o ∈ operators, o = '+' ∨ o = '-') ∧
    serialize_problem numbers operators = some b

theorem arrayPart_serialized (numbers : List Nat) (operators : List Char) (s : List Char)
    (hser : serialize_problem numbers operators = some s) :
    ∃ lastNum lastOp, numbers.getLast? = some lastNum ∧ operators.getLast? = some lastOp ∧
      s = '$' :: (' ' :: bArrR ++ '\n' :: problemLatex numbers.dropLast lastOp lastNum ++
          '\n' :: eArr ++ [' ']) ++ ['$'] ∧
      arrayPartOfBlock s =
        bArrR ++ '\n' :: problemLatex numbers.dropLast lastOp lastNum ++ '\n' :: eArr := by
  obtain ⟨lastNum, lastOp, hln, hlo, hs⟩ := serialize_eq numbers operators s hser
  refine ⟨lastNum, lastOp, hln, hlo, ?_, ?_⟩
  · rw [hs]; simp
  · unfold arrayPartOfBlock innerOf
    rw [hs]
    have hdrop : ('$' :: ' ' :: bArrR ++ '\n' ::
        problemLatex numbers.dropLast lastOp lastNum ++ '\n' :: eArr ++ [' ', '$']).drop 1 =
        ' ' :: bArrR ++ '\n' :: problemLatex numbers.dropLast lastOp lastNum ++
          '\n' :: eArr ++ [' ', '$'] := rfl
    rw [hdrop]
    have hconcat : ' ' :: bArrR ++ '\n' ::
        problemLatex numbers.dropLast lastOp lastNum ++ '\n' :: eArr ++ [' ', '$'] =
        (' ' :: bArrR ++ '\n' :: problemLatex numbers.dropLast lastOp lastNum ++
          '\n' :: eArr ++ [' ']) ++ ['$'] := by
      simp
    rw [hconcat, List.dropLast_concat]
    have hsand : ' ' :: bArrR ++ '\n' ::
        problemLatex numbers.dropLast lastOp lastNum ++ '\n' :: eArr ++ [' '] =
        [' '] ++ (bArrR ++ '\n' :: problemLatex numbers.dropLast lastOp lastNum ++
          '\n' :: eArr) ++ [' '] := by
      simp
    rw [hsand]
    refine stripL_sandwich _ _ _ (by decide) (by decide) (by simp [bArrR]) ?_ ?_
    · intro c hc
      rw [show (bArrR ++ '\n' :: problemLatex numbers.dropLast lastOp lastNum ++
        '\n' :: eArr).head? = some '\\' from rfl] at hc
      rw [← Option.some.inj hc]
      decide
    · intro c hc
      have hsh : bArrR ++ '\n' :: problemLatex numbers.dropLast lastOp lastNum ++
          '\n' :: eArr =
          (bArrR ++ '\n' :: problemLatex numbers.dropLast lastOp lastNum ++ ['\n']) ++
            eArr := by
        simp
      rw [hsh, List.getLast?_append_of_ne_nil _ (by decide),
        show eArr.getLast? = some '}' from by decide] at hc
      rw [← Option.some.inj hc]
      decide

theorem serializedCell_CellOk (b : List Char) (h : IsSerializedCell b) : CellOk b := by
  obtain ⟨numbers, operators, hops, hser⟩ := h
  obtain ⟨lastNum, lastOp, hln, hlo, hshape, harr⟩ :=
    arrayPart_serialized numbers operators b hser
  have hop : lastOp = '+' ∨ lastOp = '-' := hops lastOp (mem_of_getLast?_eq hlo)
  have hPL : ∀ y ∈ problemLatex numbers.dropLast lastOp lastNum,
      y ≠ '$' ∧ y ≠ 'u' ∧ y ≠ 'o' := fun y hy =>
    ⟨serChar_ne lastOp y '$' hop (problemLatex_chars _ _ _ y hy) (by decide) (by decide),
     serChar_ne lastOp y 'u' hop (problemLatex_chars _ _ _ y hy) (by decide) (by decide),
     serChar_ne lastOp y 'o' hop (problemLatex_chars _ _ _ y hy) (by decide) (by decide)⟩
  refine ⟨⟨_, hshape⟩, ?_⟩
  rw [hshape, innerOf_wrap]
  intro x hx
  rcases List.mem_append.mp hx with hx1 | hx2
  · rcases List.mem_append.mp hx1 with hx3 | hxC
    · rcases List.mem_append.mp hx3 with hxA | hxB
      · exact (show ∀ z ∈ (' ' :: bArrR), z ≠ '$' ∧ z ≠ 'u' ∧ z ≠ 'o' by decide) x hxA
      · rcases List.mem_cons.mp hxB with rfl | hxB1
        · exact ⟨by decide, by decide, by decide⟩
        · exact hPL x hxB1
    · rcases List.mem_cons.mp hxC with rfl | hxC1
      · exact ⟨by decide, by decide, by decide⟩
      · exact (show ∀ z ∈ eArr, z ≠ '$' ∧ z ≠ 'u' ∧ z ≠ 'o' by decide) x hxC1
  · rw [List.mem_singleton.mp hx2]
    exact ⟨by decide, by decide, by decide⟩

theorem serializedCell_arraySpan (b : List Char) (h : IsSerializedCell b) :
    isArrayBlockSpan (innerOf b) = true := by
  obtain ⟨numbers, operators, hops, hser⟩ := h
  obtain ⟨lastNum, lastOp, hln, hlo, hshape, harr⟩ :=
    arrayPart_serialized numbers operators b hser
  have h2 : stripL (innerOf b) =
      bArrR ++ '\n' :: problemLatex numbers.dropLast lastOp lastNum ++ '\n' :: eArr := harr
  unfold isArrayBlockSpan
  rw [h2, Bool.and_eq_true]
  constructor
  · rw [show bArrR ++ '\n' :: problemLatex numbers.dropLast lastOp lastNum ++ '\n' :: eArr =
      beginArr ++ (['{', 'r', '}'] ++
        ('\n' :: problemLatex numbers.dropLast lastOp lastNum ++ '\n' :: eArr))
      from by simp [bArrR, beginArr]]
    exact leadsWith_self_append _ _
  · unfold trailsWith
    rw [show bArrR ++ '\n' :: problemLatex numbers.dropLast lastOp lastNum ++ '\n' :: eArr =
      (bArrR ++ '\n' :: problemLatex numbers.dropLast lastOp lastNum ++ ['\n']) ++ eArr
      from by simp]
    rw [List.reverse_append]
    exact leadsWith_self_append _ _

theorem filterMap_spans_all (l : List (List Char))
    (h : ∀ b ∈ l, isArrayBlockSpan (innerOf b) = true) :
    (l.filterMap fun b =>
        if isArrayBlockSpan (innerOf b) then some (stripL (innerOf b)) else none) =
      l.map arrayPartOfBlock := by
  induction l with
  | nil => rfl
  | cons b rest ih =>
    rw [List.map_cons, ← ih (fun x hx => h x (List.mem_cons_of_mem b hx))]
    simp [List.filterMap_cons, h b (List.mem_cons_self b rest), arrayPartOfBlock]

/-- C5: extraction run on a document assembled from rows of well-formed
serialized problem blocks returns exactly those blocks' trimmed
array-environment contents, in the original order. -/
theorem c5_extraction_recovers_blocks (rows : List (List (List Char))) (pr : Nat)
    (hne : rows ≠ []) (hrows : ∀ row ∈ rows, row ≠ [])
    (hcells : ∀ row ∈ rows, ∀ b ∈ row, IsSerializedCell b) :
    extract_math_blocks (generate_latex_document rows pr) =
      rows.flatten.map arrayPartOfBlock := by
  rw [extract_assembled rows pr hne hrows
    (fun row hrow b hb => serializedCell_CellOk b (hcells row hrow b hb))]
  exact filterMap_spans_all _ (fun b hb => by
    obtain ⟨row, hrow, hbrow⟩ := List.mem_flatten.mp hb
    exact serializedCell_arraySpan b (hcells row hrow b hbrow))

theorem c5_extraction_witness :
    extract_math_blocks (generate_latex_document [[sampleBlock]] 1) =
      ([[sampleBlock]] : List (List (List Char))).flatten.map arrayPartOfBlock :=
  c5_extraction_recovers_blocks [[sampleBlock]] 1 (by simp)
    (by
      intro row hrow
      rw [List.mem_singleton.mp hrow]
      simp)
    (by
      intro row hrow b hb
      rw [List.mem_singleton.mp hrow] at hb
      rw [List.mem_singleton.mp hb]
      exact ⟨[452, 37], ['-'], by decide, by decide⟩)

/-- One full generated row of five problems from a requested total of 3:
main rounds 3 up to one row and the row loop emits five problems. -/
def fullRow3 : List (List (List Char)) :=
  [[sampleBlock, sampleBlock, sampleBlock, sampleBlock, sampleBlock]]

theorem fullRow3_cells : ∀ row ∈ fullRow3, ∀ b ∈ row, IsSerializedCell b := by
  intro row hrow b hb
  rw [List.mem_singleton.mp hrow] at hb
  have hbs : b = sampleBlock := by simpa using hb
  rw [hbs]
  exact ⟨[452, 37], ['-'], by decide, by decide⟩

/-- C7 (counterexample): a requested total of 3 problems with perRow = 5 does
not yield a single row of exactly 3 cells: the generator rounds 3 up to one
row and fills that row with five generated problems, so extraction on the
assembled document returns 5 blocks, not 3. -/
theorem c7_three_blocks_counterexample :
    num_rows_from_total 3 = 1 ∧
      (extract_math_blocks (generate_latex_document fullRow3 5)).length = 5 ∧
      ¬ (extract_math_blocks (generate_latex_document fullRow3 5)).length = 3 := by
  have hmain := extract_assembled fullRow3 5 (by simp [fullRow3])
    (by
      intro row hrow
      rw [List.mem_singleton.mp hrow]
      simp)
    (fun row hrow b hb => serializedCell_CellOk b (fullRow3_cells row hrow b hb))
  rw [filterMap_spans_all _ (fun b hb => by
    obtain ⟨row, hrow, hbrow⟩ := List.mem_flatten.mp hb
    exact serializedCell_arraySpan b (fullRow3_cells row hrow b hbrow))] at hmain
  have hlen : (extract_math_blocks (generate_latex_document fullRow3 5)).length = 5 := by
    rw [hmain]
    rfl
  exact ⟨rfl, hlen, by rw [hlen]; decide⟩

theorem length_flatten_rows (rows : List (List (List Char)))
    (h : ∀ row ∈ rows, row.length = 5) : rows.flatten.length = rows.length * 5 := by
  induction rows with
  | nil => rfl
  | cons row rest ih =>
    rw [List.flatten_cons, List.length_append, h row (List.mem_cons_self row rest),
      ih (fun r hr => h r (List.mem_cons_of_mem row hr)), List.length_cons]
    ring

/-- C7 (amended): the requested total is rounded up to full rows by ceiling
division and every row - the last included - is filled with exactly perRow = 5
generated problems; the assembled document therefore carries
num_rows_from_total total * 5 blocks, never a partial last row. -/
theorem c7_total_rounded_rows_filled (total : Nat) (rows : List (List (List Char)))
    (hlen : rows.length = num_rows_from_total total)
    (hrow5 : ∀ row ∈ rows, row.length = 5)
    (hcells : ∀ row ∈ rows, ∀ b ∈ row, IsSerializedCell b) :
    (extract_math_blocks (generate_latex_document rows 5)).length =
      num_rows_from_total total * 5 := by
  have hpos : num_rows_from_total total ≠ 0 := by
    intro hz
    unfold num_rows_from_total at hz
    by_cases hc : (total + 5 - 1) / 5 = 0
    · rw [if_pos hc] at hz
      exact one_ne_zero hz
    · rw [if_neg hc] at hz
      exact hc hz
  have hne : rows ≠ [] := by
    intro hc
    rw [hc] at hlen
    exact hpos hlen.symm
  have hrne : ∀ row ∈ rows, row ≠ [] := by
    intro row hrow hc
    have h5 := hrow5 row hrow
    rw [hc] at h5
    exact absurd h5 (by decide)
  have hmain := extract_assembled rows 5 hne hrne
    (fun row hrow b hb => serializedCell_CellOk b (hcells row hrow b hb))
  rw [hmain, filterMap_spans_all _ (fun b hb => by
      obtain ⟨row, hrow, hbrow⟩ := List.mem_flatten.mp hb
      exact serializedCell_arraySpan b (hcells row hrow b hbrow)),
    List.length_map, length_flatten_rows rows hrow5, hlen]

theorem c7_total_rounded_witness :
    (extract_math_blocks (generate_latex_document fullRow3 5)).length =
      num_rows_from_total 3 * 5 :=
  c7_total_rounded_rows_filled 3 fullRow3 (by decide)
    (by
      intro row hrow
      rw [List.mem_singleton.mp hrow]
      rfl)
    fullRow3_cells

/-- C8: in a document assembled from a row whose middle cell is a `$...$`
span that is not a whole array environment (for example one missing
`\end\x7barray\x7d`), extraction returns the two well-formed blocks around
it, in order, and silently skips the malformed span - no partial or garbled
block appears in the output. -/
theorem c8_malformed_span_skipped (w1 m w3 : List Char) (pr : Nat)
    (h1 : IsSerializedCell w1) (h3 : IsSerializedCell w3)
    (hm : CellOk m) (hbad : isArrayBlockSpan (innerOf m) = false) :
    extract_math_blocks (generate_latex_document [[w1, m, w3]] pr) =
      [arrayPartOfBlock w1, arrayPartOfBlock w3] := by
  have hmain := extract_assembled [[w1, m, w3]] pr (by simp)
    (by
      intro row hrow
      rw [List.mem_singleton.mp hrow]
      simp)
    (by
      intro row hrow b hb
      rw [List.mem_singleton.mp hrow] at hb
      rcases List.mem_cons.mp hb with rfl | hb1
      · exact serializedCell_CellOk _ h1
      · rcases List.mem_cons.mp hb1 with rfl | hb2
        · exact hm
        · rw [List.mem_singleton.mp hb2]
          exact serializedCell_CellOk _ h3)
  rw [hmain]
  rw [show ([[w1, m, w3]] : List (List (List Char))).flatten = [w1, m, w3] from by simp]
  simp [List.filterMap_cons, serializedCell_arraySpan w1 h1, hbad,
    serializedCell_arraySpan w3 h3, arrayPartOfBlock]

/-- The interior of a `$...$` span that opens an array environment but never
closes it. -/
def badInner : List Char := " \\begin\x7barray\x7d\x7br\x7d 1 ".data

def badSpan : List Char := '$' :: badInner ++ ['$']

theorem c8_malformed_witness :
    extract_math_blocks (generate_latex_document [[sampleBlock, badSpan, sampleBlock]] 3) =
      [arrayPartOfBlock sampleBlock, arrayPartOfBlock sampleBlock] :=
  c8_malformed_span_skipped sampleBlock badSpan sampleBlock 3
    ⟨[452, 37], ['-'], by decide, by decide⟩
    ⟨[452, 37], ['-'], by decide, by decide⟩
    ⟨⟨badInner, rfl⟩, by decide⟩
    (by decide)
